import Mathlib

/-!
Verification of the t-tool localization core against its natural-language
specification.

Python strings are modelled as `List Char`.  The character classes of the
regular expressions in the source (`\d`, `\w`, `\s`) are read at ASCII
granularity, which is faithful for every text the claims below speak about.
Recursive scanners carry an explicit fuel argument equal to the length of the
scanned list so that every definition computes by kernel reduction.
-/

namespace TTool

abbrev Str := List Char

def str (s : String) : Str := s.data

/-- ASCII whitespace, the class matched by the source regex `\s` and trimmed
by Python `str.strip`. -/
def isSpaceA (c : Char) : Bool :=
  c == ' ' || c == '\t' || c == '\n' || c == '\r' || c == '\x0b' || c == '\x0c'

/-- Word character, the ASCII reading of the regex class `\w` used by the
word-boundary assertion in the angle-tag pattern. -/
def isWordA (c : Char) : Bool :=
  c.isAlphanum || c == '_'

/-- Decimal digit character for a digit value; values at or above nine all map
to the nine digit, but the callers below only pass values below ten. -/
def digitChar : Nat → Char
  | 0 => '0' | 1 => '1' | 2 => '2' | 3 => '3' | 4 => '4'
  | 5 => '5' | 6 => '6' | 7 => '7' | 8 => '8' | _ => '9'

/-- Fuel-driven decimal printer (most significant digit first), the model of
Python `str(k)` for positive `k`. -/
def natDigitsF : Nat → Nat → Str
  | _, 0 => []
  | 0, _ => []
  | fuel + 1, n + 1 => natDigitsF fuel ((n + 1) / 10) ++ [digitChar ((n + 1) % 10)]

def natDigits (n : Nat) : Str := natDigitsF n n

/-- Decimal rendering including zero, the model of Python `str(n)` for any
natural `n` (used in message formatting). -/
def natRepr (n : Nat) : Str := if n = 0 then str "0" else natDigits n

/-- The opaque placeholder lock token `⟦PH_k⟧` of the firewall. -/
def phToken (k : Nat) : Str := str "⟦PH_" ++ natDigits k ++ str "⟧"

/-- Python slice `s[a:b]` for indices in range. -/
def slice (s : Str) (a b : Nat) : Str := (s.drop a).take (b - a)

/-- Fuel-driven body of `replaceAll`; mirrors Python `str.replace`, replacing
non-overlapping occurrences of `pat` left to right.  The empty pattern acts as
the identity (all call sites pass non-empty patterns). -/
def replaceAllF (pat rep : Str) : Nat → Str → Str
  | _, [] => []
  | 0, s => s
  | fuel + 1, c :: t =>
    if pat ≠ [] ∧ pat.isPrefixOf (c :: t) then
      rep ++ replaceAllF pat rep fuel ((c :: t).drop pat.length)
    else
      c :: replaceAllF pat rep fuel t

/-- Python `s.replace(pat, rep)` on `List Char`. -/
def replaceAll (pat rep s : Str) : Str := replaceAllF pat rep s.length s

/-- Insert into a list sorted by the boolean relation `le` (stable). -/
def insertLe (le : α → α → Bool) (x : α) : List α → List α
  | [] => [x]
  | y :: ys => if le x y then x :: y :: ys else y :: insertLe le x ys

/-- Stable insertion sort by a boolean relation; the model of Python
`list.sort(key=...)` at the (duplicate-free keyed) call sites below. -/
def sortByLe (le : α → α → Bool) : List α → List α
  | [] => []
  | x :: xs => insertLe le x (sortByLe le xs)

section FirewallMatchers

/-! Matchers for the six placeholder regular expressions of
`tt_core/qa/placeholder_firewall.py`.  Each matcher reports the length of the
(unique, leftmost-greedy) match anchored at the head of its argument, or
`none`.  The regexes are deterministic here: every greedy repetition is over a
class that excludes the character that must follow it, so backtracking never
yields a second outcome. -/

/-- Regex `\{\{[^{}\r\n]+\}\}` (kind `double_curly`). -/
def mDoubleCurly : Str → Option Nat
  | '{' :: '{' :: rest =>
    let run := rest.takeWhile fun c => !(c == '{' || c == '}' || c == '\r' || c == '\n')
    if run.isEmpty then none
    else
      match rest.drop run.length with
      | '}' :: '}' :: _ => some (run.length + 4)
      | _ => none
  | _ => none

/-- Case-insensitive prefix test (regex flag `re.IGNORECASE`, ASCII letters). -/
def isPrefixCI : Str → Str → Bool
  | [], _ => true
  | _ :: _, [] => false
  | p :: ps, c :: cs => p.toLower == c.toLower && isPrefixCI ps cs

/-- Whether the character at offset `n` is a word character (false at end of
input), for the `\b` assertion after a tag name. -/
def isWordAt (s : Str) (n : Nat) : Bool :=
  match s.drop n with
  | c :: _ => isWordA c
  | [] => false

/-- Regex fragment `[^>]*>`: length consumed, or `none` when no `>` follows. -/
def angleRest (s : Str) : Option Nat :=
  let run := s.takeWhile fun c => c != '>'
  match s.drop run.length with
  | '>' :: _ => some (run.length + 1)
  | _ => none

/-- The alternation `(?:b|i|color|size)\b`: length of the tag name when one of
the alternatives matches at the head of `body` followed by a word boundary.
The four names start with distinct letters, so at most one alternative can
match and the regex alternation order is immaterial. -/
def findTagName (body : Str) : Option Nat :=
  if isPrefixCI (str "b") body && !isWordAt body 1 then some 1
  else if isPrefixCI (str "i") body && !isWordAt body 1 then some 1
  else if isPrefixCI (str "color") body && !isWordAt body 5 then some 5
  else if isPrefixCI (str "size") body && !isWordAt body 4 then some 4
  else none

/-- Regex `</?(?:b|i|color|size)\b[^>]*>|<sprite\b[^>]*>` (kind `angle_tag`),
case-insensitive.  A slash admits only the first alternative (the sprite
alternative requires `sprite` directly after `<`). -/
def mAngleTag : Str → Option Nat
  | '<' :: '/' :: body =>
    match findTagName body with
    | some n => (angleRest (body.drop n)).map fun m => 2 + n + m
    | none => none
  | '<' :: body =>
    match findTagName body with
    | some n => (angleRest (body.drop n)).map fun m => 1 + n + m
    | none =>
      if isPrefixCI (str "sprite") body && !isWordAt body 6 then
        (angleRest (body.drop 6)).map fun m => 7 + m
      else none
  | _ => none

/-- Regex `\{(?:\d+|[A-Za-z_][A-Za-z0-9_]*)\}` (kind `curly`). -/
def mCurly : Str → Option Nat
  | '{' :: rest =>
    match rest with
    | c :: _ =>
      if c.isDigit then
        let run := rest.takeWhile Char.isDigit
        match rest.drop run.length with
        | '}' :: _ => some (run.length + 2)
        | _ => none
      else if c.isAlpha || c == '_' then
        let run := rest.takeWhile fun d => d.isAlphanum || d == '_'
        match rest.drop run.length with
        | '}' :: _ => some (run.length + 2)
        | _ => none
      else none
    | [] => none
  | _ => none

/-- Regex `%(?:\d+\$)?[sd]` (kind `percent`).  When digits follow the percent
sign the optional group is forced: the bare `[sd]` fallback would meet a digit
and fail. -/
def mPercent : Str → Option Nat
  | '%' :: rest =>
    let ds := rest.takeWhile Char.isDigit
    if ds.isEmpty then
      match rest with
      | c :: _ => if c == 's' || c == 'd' then some 2 else none
      | [] => none
    else
      match rest.drop ds.length with
      | '$' :: c :: _ => if c == 's' || c == 'd' then some (1 + ds.length + 2) else none
      | _ => none
  | _ => none

/-- Regex `\\n`, a literal backslash-n pair (kind `escaped_newline`). -/
def mEscapedNewline : Str → Option Nat
  | '\\' :: 'n' :: _ => some 2
  | _ => none

/-- Regex `\n`, a real newline (kind `newline`). -/
def mNewline : Str → Option Nat
  | '\n' :: _ => some 1
  | _ => none

end FirewallMatchers

/-- Fuel-driven scan mirroring `re.finditer`: try the matcher at each position
left to right and continue after each match.  None of the six patterns can
match the empty string, so a reported length of zero is treated as no match
and the scan stops at the end of the text. -/
def findIterF (m : Str → Option Nat) : Nat → Str → Nat → List (Nat × Nat)
  | 0, _, _ => []
  | _, [], _ => []
  | fuel + 1, c :: t, pos =>
    match m (c :: t) with
    | some (n + 1) => (pos, n + 1) :: findIterF m fuel (t.drop n) (pos + n + 1)
    | _ => findIterF m fuel t (pos + 1)

/-- All matches of `m` in `s` as `(position, length)` pairs. -/
def findIter (m : Str → Option Nat) (s : Str) : List (Nat × Nat) :=
  findIterF m s.length s 0

structure RawMatch where
  start : Nat
  stop : Nat
  ptype : String
  value : Str
deriving Repr, DecidableEq

/-- The priority-ordered pattern table `_PLACEHOLDER_PATTERNS`. -/
def patternList : List (String × (Str → Option Nat)) :=
  [("double_curly", mDoubleCurly), ("angle_tag", mAngleTag), ("curly", mCurly),
   ("percent", mPercent), ("escaped_newline", mEscapedNewline), ("newline", mNewline)]

/-- `_overlaps`: whether span `[a, b)` overlaps one of the occupied spans. -/
def overlapsAny (a b : Nat) (spans : List (Nat × Nat)) : Bool :=
  spans.any fun sp => a < sp.2 && sp.1 < b

/-- Accumulate the matches of one pattern, skipping spans that overlap the
already occupied ones, as in the inner loop of `extract_placeholders`. -/
def addMatches (text : Str) (ptype : String) (ms : List (Nat × Nat))
    (acc : List (Nat × Nat) × List RawMatch) : List (Nat × Nat) × List RawMatch :=
  ms.foldl
    (fun acc sp =>
      if overlapsAny sp.1 (sp.1 + sp.2) acc.1 then acc
      else (acc.1 ++ [(sp.1, sp.1 + sp.2)],
            acc.2 ++ [⟨sp.1, sp.1 + sp.2, ptype, slice text sp.1 (sp.1 + sp.2)⟩]))
    acc

/-- The collected (still unsorted) matches of all six patterns. -/
def collectAll (text : Str) : List RawMatch :=
  (patternList.foldl (fun acc pr => addMatches text pr.1 (findIter pr.2 text) acc)
    ([], [])).2

def leStart (a b : RawMatch) : Bool := decide (a.start ≤ b.start)

structure Placeholder where
  ptype : String
  value : Str
  start : Nat
  stop : Nat
  token : Str
deriving Repr, DecidableEq

/-- Number the sorted matches from one upward and attach the lock tokens, as
in the final comprehension of `extract_placeholders` (`enumerate(..., 1)`). -/
def attachTokens (k : Nat) : List RawMatch → List Placeholder
  | [] => []
  | r :: rs => ⟨r.ptype, r.value, r.start, r.stop, phToken k⟩ :: attachTokens (k + 1) rs

/-- `extract_placeholders`: collect per-pattern matches with first-wins overlap
filtering, sort by start position, and number left to right.  The early return
on empty text of the source is value-equal to the general path. -/
def extract_placeholders (text : Str) : List Placeholder :=
  attachTokens 1 (sortByLe leStart (collectAll text))

structure ProtectedText where
  original : Str
  protectedText : Str
  placeholders : List Placeholder
  token_map : List (Str × Str)
deriving Repr, DecidableEq

/-- The chunk-building loop of `protect_text` (cursor threading).  The source
skips placeholders whose span is `None`, which `extract_placeholders` never
produces. -/
def protectChunks (text : Str) (cur : Nat) : List Placeholder → Str
  | [] => text.drop cur
  | ph :: rest => slice text cur ph.start ++ ph.token ++ protectChunks text ph.stop rest

/-- `protect_text`.  The early return on an empty placeholder list of the
source yields the same value as the general path (`protectChunks text 0 [] =
text`), so a single path is used.  The field `protected` of the source is
renamed `protectedText` (Lean keyword). -/
def protect_text (text : Str) : ProtectedText :=
  let phs := extract_placeholders text
  { original := text
    protectedText := protectChunks text 0 phs
    placeholders := phs
    token_map := phs.map fun ph => (ph.token, ph.value) }

/-- `reinject`: substitute each lock token by its original literal, in order. -/
def reinject (pt : ProtectedText) (translated : Str) : Str :=
  pt.placeholders.foldl (fun out ph => replaceAll ph.token ph.value out) translated

/-- Insertion-ordered deduplication (models building a keyed set). -/
def dedupKeys (l : List Str) : List Str :=
  l.foldl (fun acc v => if acc.contains v then acc else acc ++ [v]) []

/-- Lexicographic order on char lists by code point, the order of Python
`sorted` on strings. -/
def lexLe : Str → Str → Bool
  | [], _ => true
  | _ :: _, [] => false
  | a :: as_, b :: bs => if a < b then true else if b < a then false else lexLe as_ bs

def missingMsg (v : Str) (e f : Nat) : Str :=
  str "Missing placeholder \x27" ++ v ++ str "\x27 (expected " ++ natRepr e ++
    str ", found " ++ natRepr f ++ str ")"

def extraMsg (v : Str) (e f : Nat) : Str :=
  str "Extra placeholder \x27" ++ v ++ str "\x27 (expected " ++ natRepr e ++
    str ", found " ++ natRepr f ++ str ")"

/-- `validate_placeholders`: compare placeholder value multisets (iterating the
sorted union of the two key sets) and, when the counts agree, the left-to-right
value order. -/
def validate_placeholders (original final : Str) : List Str :=
  let origVals := (extract_placeholders original).map (·.value)
  let finVals := (extract_placeholders final).map (·.value)
  let keys := sortByLe lexLe (dedupKeys (origVals ++ finVals))
  let errors := keys.foldl
    (fun acc v =>
      let expected := origVals.count v
      let found := finVals.count v
      if found < expected then acc ++ [missingMsg v expected found]
      else if expected < found then acc ++ [extraMsg v expected found]
      else acc)
    []
  if errors.isEmpty && !(origVals == finVals) then
    errors ++ [str "Placeholder order changed."]
  else errors

section ListHelpers

theorem prefix_append_cases {p u x : Str} (h : p <+: u ++ x) :
    p <+: u ∨ ∃ t, p = u ++ t ∧ t <+: x := by
  rcases Nat.le_total p.length u.length with hle | hle
  · exact Or.inl (List.prefix_of_prefix_length_le h (u.prefix_append x) hle)
  · right
    have hup : u <+: p := List.prefix_of_prefix_length_le (u.prefix_append x) h hle
    obtain ⟨t, ht⟩ := hup
    subst ht
    refine ⟨t, rfl, ?_⟩
    obtain ⟨w, hw⟩ := h
    rw [List.append_assoc] at hw
    exact ⟨w, List.append_cancel_left hw⟩

theorem suffix_append_cases {v x y : Str} (h : v <:+ x ++ y) :
    (∃ u, u <:+ x ∧ v = u ++ y) ∨ v <:+ y := by
  obtain ⟨w, hw⟩ := h
  rcases Nat.le_total w.length x.length with hle | hle
  · left
    have hwx : w <+: x :=
      List.prefix_of_prefix_length_le ⟨v, hw⟩ (x.prefix_append y) hle
    obtain ⟨t, ht⟩ := hwx
    refine ⟨t, ⟨w, ht⟩, ?_⟩
    subst ht
    rw [List.append_assoc] at hw
    exact List.append_cancel_left hw
  · right
    have hxw : x <+: w :=
      List.prefix_of_prefix_length_le (x.prefix_append y) ⟨v, hw⟩ hle
    obtain ⟨t, ht⟩ := hxw
    subst ht
    rw [List.append_assoc] at hw
    exact ⟨t, List.append_cancel_left hw⟩

theorem head_mem_of_suffix {c : Char} {u' l : Str} (h : (c :: u') <:+ l) : c ∈ l :=
  h.subset (List.mem_cons_self c u')

end ListHelpers

section ReplaceLemmas

theorem replaceAllF_nil (pat rep : Str) (f : Nat) : replaceAllF pat rep f [] = [] := by
  cases f <;> rfl

theorem replaceAllF_congr_fuel (pat rep : Str) :
    ∀ f₁ f₂ s, s.length ≤ f₁ → s.length ≤ f₂ →
      replaceAllF pat rep f₁ s = replaceAllF pat rep f₂ s := by
  intro f₁
  induction f₁ with
  | zero =>
    intro f₂ s h₁ _
    have : s = [] := List.eq_nil_of_length_eq_zero (Nat.le_zero.mp h₁)
    subst this
    rw [replaceAllF_nil, replaceAllF_nil]
  | succ f ih =>
    intro f₂ s h₁ h₂
    cases s with
    | nil => rw [replaceAllF_nil, replaceAllF_nil]
    | cons c t =>
      cases f₂ with
      | zero => simp at h₂
      | succ f₂' =>
        simp only [replaceAllF]
        by_cases hc : pat ≠ [] ∧ pat.isPrefixOf (c :: t)
        · rw [if_pos hc, if_pos hc]
          have hlen : ((c :: t).drop pat.length).length ≤ t.length := by
            simp only [List.length_drop, List.length_cons]
            have : 1 ≤ pat.length := List.length_pos.mpr hc.1
            omega
          have ht₁ : ((c :: t).drop pat.length).length ≤ f := by
            simp only [List.length_cons] at h₁; omega
          have ht₂ : ((c :: t).drop pat.length).length ≤ f₂' := by
            simp only [List.length_cons] at h₂; omega
          rw [ih _ _ ht₁ ht₂]
        · rw [if_neg hc, if_neg hc]
          have ht₁ : t.length ≤ f := by simp only [List.length_cons] at h₁; omega
          have ht₂ : t.length ≤ f₂' := by simp only [List.length_cons] at h₂; omega
          rw [ih _ _ ht₁ ht₂]

theorem replaceAllF_no_match (pat rep : Str) :
    ∀ f s, s.length ≤ f → (∀ v, v <:+ s → ¬ pat <+: v) →
      replaceAllF pat rep f s = s := by
  intro f
  induction f with
  | zero =>
    intro s h₁ _
    have : s = [] := List.eq_nil_of_length_eq_zero (Nat.le_zero.mp h₁)
    subst this; rfl
  | succ f ih =>
    intro s h₁ hnm
    cases s with
    | nil => rfl
    | cons c t =>
      have hcond : ¬ (pat ≠ [] ∧ pat.isPrefixOf (c :: t)) := by
        rintro ⟨-, hp⟩
        exact hnm (c :: t) (List.suffix_refl _) (List.isPrefixOf_iff_prefix.mp hp)
      simp only [replaceAllF, if_neg hcond]
      have ht : t.length ≤ f := by simp only [List.length_cons] at h₁; omega
      rw [ih t ht fun v hv => hnm v (hv.trans (List.suffix_cons c t))]

theorem replaceAll_no_match (pat rep s : Str)
    (hnm : ∀ v, v <:+ s → ¬ pat <+: v) : replaceAll pat rep s = s :=
  replaceAllF_no_match pat rep s.length s (Nat.le_refl _) hnm

theorem replaceAllF_append (pat rep : Str) :
    ∀ A B f, A.length + B.length ≤ f →
      (∀ u, u <:+ A → u ≠ [] → ¬ pat <+: (u ++ B)) →
      replaceAllF pat rep f (A ++ B) = A ++ replaceAllF pat rep (f - A.length) B := by
  intro A
  induction A with
  | nil => intro B f _ _; simp
  | cons c A' ih =>
    intro B f hf hA
    obtain ⟨f', rfl⟩ : ∃ f', f = f' + 1 :=
      ⟨f - 1, by simp only [List.length_cons] at hf; omega⟩
    have hcond : ¬ ((pat ≠ []) ∧ pat.isPrefixOf (c :: (A' ++ B))) := by
      rintro ⟨-, hp⟩
      exact hA (c :: A') (List.suffix_refl _) (List.cons_ne_nil c A')
        (by simpa using List.isPrefixOf_iff_prefix.mp hp)
    have hshape : (c :: A') ++ B = c :: (A' ++ B) := by simp
    rw [hshape]
    simp only [replaceAllF]
    rw [if_neg hcond]
    have hlen' : A'.length + B.length ≤ f' := by
      simp only [List.length_cons] at hf; omega
    rw [ih B f' hlen' (fun u hu hne => hA u (hu.trans (List.suffix_cons c A')) hne)]
    simp only [List.length_cons]
    rw [show f' + 1 - (A'.length + 1) = f' - A'.length by omega]
    rfl

theorem replaceAll_append (pat rep A B : Str)
    (hA : ∀ u, u <:+ A → u ≠ [] → ¬ pat <+: (u ++ B)) :
    replaceAll pat rep (A ++ B) = A ++ replaceAll pat rep B := by
  unfold replaceAll
  rw [replaceAllF_append pat rep A B (A ++ B).length
    (by simp only [List.length_append]; omega) hA]
  rw [show (A ++ B).length - A.length = B.length by
    simp only [List.length_append]; omega]

theorem replaceAll_head (pat rep s : Str) (hne : pat ≠ []) :
    replaceAll pat rep (pat ++ s) = rep ++ replaceAll pat rep s := by
  obtain ⟨c, pat', rfl⟩ := List.exists_cons_of_ne_nil hne
  unfold replaceAll
  have hshape : (c :: pat') ++ s = c :: (pat' ++ s) := by simp
  have hlen : ((c :: pat') ++ s).length = (pat' ++ s).length + 1 := by simp
  rw [hlen, hshape]
  simp only [replaceAllF]
  rw [if_pos ⟨List.cons_ne_nil c pat',
    by rw [← hshape]; exact List.isPrefixOf_iff_prefix.mpr (List.prefix_append _ _)⟩]
  have hdrop : (c :: (pat' ++ s)).drop (c :: pat').length = s := by
    simp only [List.length_cons, List.drop_succ_cons]
    exact List.drop_left pat' s
  rw [hdrop]
  congr 1
  exact replaceAllF_congr_fuel _ _ _ _ s
    (by simp only [List.length_append]; omega) (Nat.le_refl _)

theorem replaceAll_exact (pat rep A R : Str) (hne : pat ≠ [])
    (h1 : ∀ u, u <:+ A → u ≠ [] → ¬ pat <+: (u ++ (pat ++ R)))
    (h2 : ∀ v, v <:+ R → ¬ pat <+: v) :
    replaceAll pat rep (A ++ pat ++ R) = A ++ (rep ++ R) := by
  rw [List.append_assoc, replaceAll_append pat rep A (pat ++ R) h1,
    replaceAll_head pat rep R hne, replaceAll_no_match pat rep R h2]

end ReplaceLemmas

section TokenLemmas

def lb : Char := '⟦'

def rb : Char := '⟧'

theorem digitChar_mem (d : Nat) : digitChar d ∈ str "0123456789" := by
  have h9 : ∀ m : Nat, digitChar (m + 9) = '9' := fun m => rfl
  rcases d with _ | _ | _ | _ | _ | _ | _ | _ | _ | d
  · decide
  · decide
  · decide
  · decide
  · decide
  · decide
  · decide
  · decide
  · decide
  · show digitChar (d + 9) ∈ str "0123456789"
    rw [h9 d]
    decide

theorem natDigitsF_mem : ∀ f n, ∀ c ∈ natDigitsF f n, c ∈ str "0123456789" := by
  intro f
  induction f with
  | zero => intro n c hc; cases n <;> simp [natDigitsF] at hc
  | succ f ih =>
    intro n c hc
    cases n with
    | zero => simp [natDigitsF] at hc
    | succ n =>
      simp only [natDigitsF, List.mem_append, List.mem_singleton] at hc
      rcases hc with hc | hc
      · exact ih _ c hc
      · subst hc; exact digitChar_mem _

theorem natDigits_mem (n : Nat) : ∀ c ∈ natDigits n, c ∈ str "0123456789" :=
  natDigitsF_mem n n

theorem digitChar_inj_lt : ∀ a < 10, ∀ b < 10, digitChar a = digitChar b → a = b := by
  decide

theorem natDigitsF_inj : ∀ n₁ f₁ f₂ n₂, n₁ ≤ f₁ → n₂ ≤ f₂ →
    natDigitsF f₁ n₁ = natDigitsF f₂ n₂ → n₁ = n₂ := by
  intro n₁
  induction n₁ using Nat.strong_induction_on with
  | _ n₁ ih =>
    intro f₁ f₂ n₂ h₁ h₂ heq
    cases n₁ with
    | zero =>
      cases n₂ with
      | zero => rfl
      | succ n₂ =>
        obtain ⟨f₂', rfl⟩ : ∃ f₂', f₂ = f₂' + 1 := ⟨f₂ - 1, by omega⟩
        rw [show natDigitsF f₁ 0 = [] by cases f₁ <;> rfl] at heq
        simp [natDigitsF] at heq
    | succ n₁ =>
      cases n₂ with
      | zero =>
        obtain ⟨f₁', rfl⟩ : ∃ f₁', f₁ = f₁' + 1 := ⟨f₁ - 1, by omega⟩
        rw [show natDigitsF f₂ 0 = [] by cases f₂ <;> rfl] at heq
        simp [natDigitsF] at heq
      | succ n₂ =>
        obtain ⟨f₁', rfl⟩ : ∃ f₁', f₁ = f₁' + 1 := ⟨f₁ - 1, by omega⟩
        obtain ⟨f₂', rfl⟩ : ∃ f₂', f₂ = f₂' + 1 := ⟨f₂ - 1, by omega⟩
        simp only [natDigitsF] at heq
        have hparts := List.append_inj' heq (by rfl)
        have hdiv : (n₁ + 1) / 10 = (n₂ + 1) / 10 := by
          refine ih ((n₁ + 1) / 10) ?_ f₁' f₂' ((n₂ + 1) / 10) ?_ ?_ hparts.1
          · exact Nat.div_lt_self (Nat.succ_pos _) (by omega)
          · have := Nat.div_lt_self (Nat.succ_pos n₁) (show 1 < 10 by omega)
            omega
          · have := Nat.div_lt_self (Nat.succ_pos n₂) (show 1 < 10 by omega)
            omega
        have hmod : (n₁ + 1) % 10 = (n₂ + 1) % 10 := by
          have hc := hparts.2
          simp only [List.cons.injEq] at hc
          exact digitChar_inj_lt _ (Nat.mod_lt _ (by omega)) _ (Nat.mod_lt _ (by omega)) hc.1
        have e₁ := Nat.div_add_mod (n₁ + 1) 10
        have e₂ := Nat.div_add_mod (n₂ + 1) 10
        omega

theorem natDigits_inj {a b : Nat} (h : natDigits a = natDigits b) : a = b :=
  natDigitsF_inj a a b b (Nat.le_refl _) (Nat.le_refl _) h

theorem natDigits_ne_nil {n : Nat} (h : 1 ≤ n) : natDigits n ≠ [] := by
  obtain ⟨m, rfl⟩ : ∃ m, n = m + 1 := ⟨n - 1, by omega⟩
  simp [natDigits, natDigitsF]

def tokTail (k : Nat) : Str := str "PH_" ++ natDigits k ++ [rb]

theorem phToken_cons (k : Nat) : phToken k = lb :: tokTail k := by
  simp [phToken, tokTail, str, lb, rb]

theorem phToken_ne_nil (k : Nat) : phToken k ≠ [] := by
  rw [phToken_cons]; exact List.cons_ne_nil _ _

theorem lb_not_mem_tokTail (k : Nat) : lb ∉ tokTail k := by
  intro h
  simp only [tokTail, List.mem_append, List.mem_singleton] at h
  rcases h with (h | h) | h
  · revert h; decide
  · exact absurd (natDigits_mem k lb h) (by decide)
  · revert h; decide

theorem rb_not_mem_core (k : Nat) : rb ∉ str "⟦PH_" ++ natDigits k := by
  intro h
  simp only [List.mem_append] at h
  rcases h with h | h
  · revert h; decide
  · exact absurd (natDigits_mem k rb h) (by decide)

theorem phToken_core (k : Nat) : phToken k = (str "⟦PH_" ++ natDigits k) ++ [rb] := by
  simp [phToken, rb, str]

theorem phToken_prefix_inj {a b : Nat} (h : phToken a <+: phToken b) : a = b := by
  rw [phToken_core, phToken_core] at h
  rcases Nat.lt_or_ge (str "⟦PH_" ++ natDigits a).length (str "⟦PH_" ++ natDigits b).length
    with hlt | hge
  · exfalso
    have hple : (str "⟦PH_" ++ natDigits a) ++ [rb] <+: str "⟦PH_" ++ natDigits b :=
      List.prefix_of_prefix_length_le h (List.prefix_append _ _)
        (by simp only [List.length_append, List.length_singleton] at hlt ⊢; omega)
    exact rb_not_mem_core b (hple.subset (by simp))
  · have hlen : ((str "⟦PH_" ++ natDigits a) ++ [rb]).length =
        ((str "⟦PH_" ++ natDigits b) ++ [rb]).length := by
      have hle := h.length_le
      simp only [List.length_append, List.length_singleton] at hle hge ⊢
      omega
    have heq := h.eq_of_length hlen
    have hcore := List.append_cancel_right heq
    exact natDigits_inj (List.append_cancel_left hcore)

theorem phToken_infix_inj {a b : Nat} (h : phToken a <:+: phToken b) : a = b := by
  obtain ⟨s, t, hst⟩ := h
  cases s with
  | nil =>
    simp only [List.nil_append] at hst
    exact phToken_prefix_inj ⟨t, hst⟩
  | cons c s' =>
    exfalso
    rw [phToken_cons a, phToken_cons b] at hst
    simp only [List.cons_append, List.cons.injEq] at hst
    apply lb_not_mem_tokTail b
    rw [← hst.2]
    simp [hst.1]

end TokenLemmas

section ExtractionWF

/-- Every span reported by a matcher is non-empty and fits inside its input. -/
def MatcherOK (m : Str → Option Nat) : Prop :=
  ∀ s n, m s = some n → 1 ≤ n ∧ n ≤ s.length

theorem length_takeWhile_le_own (p : Char → Bool) (l : Str) :
    (l.takeWhile p).length ≤ l.length := by
  induction l with
  | nil => simp
  | cons c t ih =>
    by_cases h : p c
    · simp only [List.takeWhile_cons, h, if_true, List.length_cons]
      omega
    · simp [List.takeWhile_cons, h]

theorem length_ge_of_drop_cons {l x : Str} {k : Nat} {c : Char}
    (h : l.drop k = c :: x) : k + x.length + 1 ≤ l.length := by
  have := congrArg List.length h
  simp only [List.length_drop, List.length_cons] at this
  omega

theorem mDoubleCurly_ok : MatcherOK mDoubleCurly := by
  intro s n h
  unfold mDoubleCurly at h
  split at h
  case _ rest =>
    simp only at h
    split at h
    · exact absurd h (by simp)
    · split at h
      case _ xs heq =>
        have hrun := length_takeWhile_le_own
          (fun c => !(c == '{' || c == '}' || c == '\r' || c == '\n')) rest
        have hlen := length_ge_of_drop_cons heq
        simp only [List.length_cons] at hlen
        simp only [Option.some.injEq] at h
        simp only [List.length_cons]
        omega
      · exact absurd h (by simp)
  · exact absurd h (by simp)

theorem isPrefixCI_length_le : ∀ p s : Str, isPrefixCI p s = true → p.length ≤ s.length := by
  intro p
  induction p with
  | nil => intro s _; simp
  | cons c p' ih =>
    intro s h
    cases s with
    | nil => simp [isPrefixCI] at h
    | cons d s' =>
      simp only [isPrefixCI, Bool.and_eq_true] at h
      simpa using ih s' h.2

theorem angleRest_ok {s : Str} {m : Nat} (h : angleRest s = some m) :
    1 ≤ m ∧ m ≤ s.length := by
  unfold angleRest at h
  simp only at h
  split at h
  case _ xs heq =>
    have hrun := length_takeWhile_le_own (fun c => c != '>') s
    have hlen := length_ge_of_drop_cons heq
    simp only [Option.some.injEq] at h
    omega
  · exact absurd h (by simp)

theorem andE {a b : Bool} (h : (a && b) = true) : a = true ∧ b = true := by
  simp_all

theorem findTagName_le {body : Str} {nm : Nat} (h : findTagName body = some nm) :
    nm ≤ body.length := by
  unfold findTagName at h
  split at h
  · next hc =>
    simp only [Option.some.injEq] at h
    subst h
    have hle := isPrefixCI_length_le (str "b") body (andE hc).1
    simpa using hle
  · split at h
    · next hc =>
      simp only [Option.some.injEq] at h
      subst h
      have hle := isPrefixCI_length_le (str "i") body (andE hc).1
      simpa using hle
    · split at h
      · next hc =>
        simp only [Option.some.injEq] at h
        subst h
        have hle := isPrefixCI_length_le (str "color") body (andE hc).1
        simpa using hle
      · split at h
        · next hc =>
          simp only [Option.some.injEq] at h
          subst h
          have hle := isPrefixCI_length_le (str "size") body (andE hc).1
          simpa using hle
        · exact absurd h (by simp)

theorem mAngleTag_ok : MatcherOK mAngleTag := by
  intro s n h
  unfold mAngleTag at h
  split at h
  · split at h
    · rename_i body nm hname
      simp only [Option.map_eq_some'] at h
      obtain ⟨m, hm, rfl⟩ := h
      have h₁ := angleRest_ok hm
      have h₂ := findTagName_le hname
      simp only [List.length_drop] at h₁
      simp only [List.length_cons]
      omega
    · exact absurd h (by simp)
  · split at h
    · rename_i body nm hname
      simp only [Option.map_eq_some'] at h
      obtain ⟨m, hm, rfl⟩ := h
      have h₁ := angleRest_ok hm
      have h₂ := findTagName_le hname
      simp only [List.length_drop] at h₁
      simp only [List.length_cons]
      omega
    · split at h
      · rename_i body nofn x heq hc
        simp only [Option.map_eq_some'] at h
        obtain ⟨m, hm, rfl⟩ := h
        have h₁ := angleRest_ok hm
        have h₂ := isPrefixCI_length_le (str "sprite") body (andE hc).1
        have h₂' : (6 : Nat) ≤ body.length := by simpa using h₂
        simp only [List.length_drop] at h₁
        simp only [List.length_cons]
        omega
      · exact absurd h (by simp)
  · exact absurd h (by simp)

theorem mCurly_ok : MatcherOK mCurly := by
  intro s n h
  unfold mCurly at h
  split at h
  · split at h
    · split at h
      · simp only at h
        split at h
        · rename_i xs tail2 heq
          have hlen := length_ge_of_drop_cons heq
          simp only [List.length_cons] at hlen
          simp only [Option.some.injEq] at h
          simp only [List.length_cons]
          omega
        · exact absurd h (by simp)
      · split at h
        · simp only at h
          split at h
          · rename_i xs tail2 heq
            have hlen := length_ge_of_drop_cons heq
            simp only [List.length_cons] at hlen
            simp only [Option.some.injEq] at h
            simp only [List.length_cons]
            omega
          · exact absurd h (by simp)
        · exact absurd h (by simp)
    · exact absurd h (by simp)
  · exact absurd h (by simp)

theorem mPercent_ok : MatcherOK mPercent := by
  intro s n h
  unfold mPercent at h
  split at h
  · simp only at h
    split at h
    · split at h
      · split at h
        · simp only [Option.some.injEq] at h
          simp only [List.length_cons]
          omega
        · exact absurd h (by simp)
      · exact absurd h (by simp)
    · split at h
      · split at h
        · rename_i srest rest hne xs c tail heq hsd
          have hlen := length_ge_of_drop_cons heq
          simp only [List.length_cons] at hlen
          simp only [Option.some.injEq] at h
          simp only [List.length_cons]
          omega
        · exact absurd h (by simp)
      · exact absurd h (by simp)
  · exact absurd h (by simp)

theorem mEscapedNewline_ok : MatcherOK mEscapedNewline := by
  intro s n h
  unfold mEscapedNewline at h
  split at h
  · simp only [Option.some.injEq] at h
    simp only [List.length_cons]
    omega
  · exact absurd h (by simp)

theorem mNewline_ok : MatcherOK mNewline := by
  intro s n h
  unfold mNewline at h
  split at h
  · simp only [Option.some.injEq] at h
    simp only [List.length_cons]
    omega
  · exact absurd h (by simp)

theorem patternList_ok : ∀ pr ∈ patternList, MatcherOK pr.2 := by
  intro pr hpr
  simp only [patternList, List.mem_cons, List.not_mem_nil, or_false] at hpr
  rcases hpr with rfl | rfl | rfl | rfl | rfl | rfl
  exacts [mDoubleCurly_ok, mAngleTag_ok, mCurly_ok, mPercent_ok,
    mEscapedNewline_ok, mNewline_ok]

theorem findIterF_bounds {m : Str → Option Nat} (hm : MatcherOK m) :
    ∀ f s pos, s.length ≤ f → ∀ pr ∈ findIterF m f s pos,
      pos ≤ pr.1 ∧ 1 ≤ pr.2 ∧ pr.1 + pr.2 ≤ pos + s.length := by
  intro f
  induction f with
  | zero => intro s pos _ pr hpr; simp [findIterF] at hpr
  | succ f ih =>
    intro s pos hlen pr hpr
    cases s with
    | nil => simp [findIterF] at hpr
    | cons c t =>
      simp only [List.length_cons] at hlen
      rcases hmatch : m (c :: t) with _ | n
      · rw [findIterF, hmatch] at hpr
        have := ih t (pos + 1) (by omega) pr hpr
        simp only [List.length_cons]
        omega
      · cases n with
        | zero =>
          rw [findIterF, hmatch] at hpr
          have := ih t (pos + 1) (by omega) pr hpr
          simp only [List.length_cons]
          omega
        | succ n =>
          have hb := hm (c :: t) (n + 1) hmatch
          simp only [List.length_cons] at hb
          rw [findIterF, hmatch] at hpr
          rcases List.mem_cons.mp hpr with rfl | hpr'
          · simp only [List.length_cons]
            omega
          · have hdl : (t.drop n).length ≤ f := by
              simp only [List.length_drop]; omega
            have := ih (t.drop n) (pos + n + 1) hdl pr hpr'
            simp only [List.length_drop] at this
            simp only [List.length_cons]
            omega

theorem findIter_bounds {m : Str → Option Nat} (hm : MatcherOK m) (S : Str) :
    ∀ pr ∈ findIter m S, 1 ≤ pr.2 ∧ pr.1 + pr.2 ≤ S.length := by
  intro pr hpr
  have := findIterF_bounds hm S.length S 0 (Nat.le_refl _) pr hpr
  omega

def SpanWF (S : Str) (r : RawMatch) : Prop :=
  r.start < r.stop ∧ r.stop ≤ S.length ∧ r.value = slice S r.start r.stop

def Disj (a b : RawMatch) : Prop := a.stop ≤ b.start ∨ b.stop ≤ a.start

theorem Disj_symm : Symmetric Disj := by
  intro a b h
  rcases h with h | h
  · exact Or.inr h
  · exact Or.inl h

theorem addMatches_inv (S : Str) (pt : String) :
    ∀ (ms : List (Nat × Nat)) (col : List RawMatch),
      (∀ pr ∈ ms, 1 ≤ pr.2 ∧ pr.1 + pr.2 ≤ S.length) →
      (∀ r ∈ col, SpanWF S r) →
      col.Pairwise Disj →
      (addMatches S pt ms (col.map fun r => (r.start, r.stop), col)).1 =
          (addMatches S pt ms (col.map fun r => (r.start, r.stop), col)).2.map
            (fun r => (r.start, r.stop)) ∧
        (∀ r ∈ (addMatches S pt ms (col.map fun r => (r.start, r.stop), col)).2, SpanWF S r) ∧
        (addMatches S pt ms (col.map fun r => (r.start, r.stop), col)).2.Pairwise Disj := by
  intro ms
  induction ms with
  | nil => intro col _ hwf hdisj; exact ⟨rfl, hwf, hdisj⟩
  | cons sp ms' ih =>
    intro col hms hwf hdisj
    have hsp := hms sp (List.mem_cons_self _ _)
    have hms' : ∀ pr ∈ ms', 1 ≤ pr.2 ∧ pr.1 + pr.2 ≤ S.length :=
      fun pr hpr => hms pr (List.mem_cons_of_mem _ hpr)
    by_cases hovl : overlapsAny sp.1 (sp.1 + sp.2) (col.map fun r => (r.start, r.stop))
    · have hstep : addMatches S pt (sp :: ms') (col.map fun r => (r.start, r.stop), col) =
          addMatches S pt ms' (col.map fun r => (r.start, r.stop), col) := by
        simp [addMatches, hovl]
      rw [hstep]
      exact ih col hms' hwf hdisj
    · have hstep : addMatches S pt (sp :: ms') (col.map fun r => (r.start, r.stop), col) =
          addMatches S pt ms'
            ((col ++ [(⟨sp.1, sp.1 + sp.2, pt, slice S sp.1 (sp.1 + sp.2)⟩ : RawMatch)]).map
                fun r => (r.start, r.stop),
              col ++ [(⟨sp.1, sp.1 + sp.2, pt, slice S sp.1 (sp.1 + sp.2)⟩ : RawMatch)]) := by
        simp [addMatches, hovl, List.map_append]
      rw [hstep]
      refine ih (col ++ [(⟨sp.1, sp.1 + sp.2, pt, slice S sp.1 (sp.1 + sp.2)⟩ : RawMatch)])
        hms' ?_ ?_
      · intro r hr
        rcases List.mem_append.mp hr with hr | hr
        · exact hwf r hr
        · rw [List.mem_singleton.mp hr]
          unfold SpanWF
          refine ⟨?_, ?_, rfl⟩ <;> dsimp only <;> omega
      · rw [List.pairwise_append]
        refine ⟨hdisj, List.pairwise_singleton _ _, ?_⟩
        intro a ha b hb
        rw [List.mem_singleton.mp hb]
        have hmem : (a.start, a.stop) ∈ col.map (fun r => (r.start, r.stop)) :=
          List.mem_map_of_mem _ ha
        have hno : ¬ (sp.1 < a.stop ∧ a.start < sp.1 + sp.2) := by
          intro hcontra
          apply hovl
          unfold overlapsAny
          rw [List.any_eq_true]
          refine ⟨(a.start, a.stop), hmem, ?_⟩
          simp only [decide_eq_true_eq, Bool.and_eq_true]
          exact ⟨hcontra.1, hcontra.2⟩
        unfold Disj
        dsimp only
        omega

theorem collect_fold_inv (S : Str) :
    ∀ (pl : List (String × (Str → Option Nat))) (col : List RawMatch),
      (∀ pr ∈ pl, MatcherOK pr.2) →
      (∀ r ∈ col, SpanWF S r) →
      col.Pairwise Disj →
      (∀ r ∈ (pl.foldl (fun acc pr => addMatches S pr.1 (findIter pr.2 S) acc)
          (col.map fun r => (r.start, r.stop), col)).2, SpanWF S r) ∧
        (pl.foldl (fun acc pr => addMatches S pr.1 (findIter pr.2 S) acc)
          (col.map fun r => (r.start, r.stop), col)).2.Pairwise Disj := by
  intro pl
  induction pl with
  | nil => intro col _ hwf hdisj; exact ⟨hwf, hdisj⟩
  | cons p pl' ih =>
    intro col hpl hwf hdisj
    have hmk := addMatches_inv S p.1 (findIter p.2 S) col
      (findIter_bounds (hpl p (List.mem_cons_self _ _)) S) hwf hdisj
    have heq : addMatches S p.1 (findIter p.2 S) (col.map fun r => (r.start, r.stop), col) =
        ((addMatches S p.1 (findIter p.2 S) (col.map fun r => (r.start, r.stop), col)).2.map
          (fun r => (r.start, r.stop)),
         (addMatches S p.1 (findIter p.2 S) (col.map fun r => (r.start, r.stop), col)).2) := by
      rw [← hmk.1]
    simp only [List.foldl_cons]
    rw [heq]
    exact ih _ (fun pr hpr => hpl pr (List.mem_cons_of_mem _ hpr)) hmk.2.1 hmk.2.2

theorem collectAll_wf (S : Str) :
    (∀ r ∈ collectAll S, SpanWF S r) ∧ (collectAll S).Pairwise Disj := by
  have := collect_fold_inv S patternList [] patternList_ok (by simp) (by simp)
  simpa [collectAll] using this

theorem insertLe_perm (le : α → α → Bool) (x : α) (l : List α) :
    List.Perm (insertLe le x l) (x :: l) := by
  induction l with
  | nil => simp [insertLe]
  | cons y ys ih =>
    by_cases h : le x y
    · simp [insertLe, h]
    · simp only [insertLe, if_neg h]
      exact (ih.cons y).trans (List.Perm.swap x y ys)

theorem sortByLe_perm (le : α → α → Bool) (l : List α) : List.Perm (sortByLe le l) l := by
  induction l with
  | nil => simp [sortByLe]
  | cons x xs ih =>
    exact (insertLe_perm le x (sortByLe le xs)).trans (ih.cons x)

theorem pairwise_insertLe {le : α → α → Bool}
    (htot : ∀ a b, le a b = true ∨ le b a = true)
    (htrans : ∀ a b c, le a b = true → le b c = true → le a c = true)
    (x : α) : ∀ l, l.Pairwise (fun a b => le a b = true) →
      (insertLe le x l).Pairwise (fun a b => le a b = true) := by
  intro l
  induction l with
  | nil => intro _; simp [insertLe]
  | cons y ys ih =>
    intro hp
    rw [List.pairwise_cons] at hp
    by_cases h : le x y
    · simp only [insertLe, if_pos h]
      rw [List.pairwise_cons]
      refine ⟨?_, List.pairwise_cons.mpr hp⟩
      intro z hz
      rcases List.mem_cons.mp hz with rfl | hz'
      · exact h
      · exact htrans x y z h (hp.1 z hz')
    · simp only [insertLe, if_neg h]
      rw [List.pairwise_cons]
      refine ⟨?_, ih hp.2⟩
      intro z hz
      have hz' := (insertLe_perm le x ys).mem_iff.mp hz
      rcases List.mem_cons.mp hz' with rfl | hz''
      · rcases htot z y with h1 | h1
        · exact absurd h1 h
        · exact h1
      · exact hp.1 z hz''

theorem pairwise_sortByLe {le : α → α → Bool}
    (htot : ∀ a b, le a b = true ∨ le b a = true)
    (htrans : ∀ a b c, le a b = true → le b c = true → le a c = true)
    (l : List α) : (sortByLe le l).Pairwise (fun a b => le a b = true) := by
  induction l with
  | nil => simp [sortByLe]
  | cons x xs ih => exact pairwise_insertLe htot htrans x _ ih

theorem leStart_total : ∀ a b : RawMatch, leStart a b = true ∨ leStart b a = true := by
  intro a b
  unfold leStart
  rcases Nat.le_total a.start b.start with h | h
  · exact Or.inl (decide_eq_true h)
  · exact Or.inr (decide_eq_true h)

theorem leStart_trans : ∀ a b c : RawMatch,
    leStart a b = true → leStart b c = true → leStart a c = true := by
  intro a b c h1 h2
  unfold leStart at h1 h2 ⊢
  exact decide_eq_true (Nat.le_trans (of_decide_eq_true h1) (of_decide_eq_true h2))

theorem sorted_raw_wf (S : Str) : ∀ r ∈ sortByLe leStart (collectAll S), SpanWF S r :=
  fun r hr => (collectAll_wf S).1 r ((sortByLe_perm leStart (collectAll S)).subset hr)

theorem sorted_raw_sep (S : Str) :
    (sortByLe leStart (collectAll S)).Pairwise (fun a b => a.stop ≤ b.start) := by
  have h1 := pairwise_sortByLe leStart_total leStart_trans (collectAll S)
  have h2 : (sortByLe leStart (collectAll S)).Pairwise Disj :=
    (collectAll_wf S).2.perm (sortByLe_perm leStart (collectAll S)).symm
      (fun hd => Disj_symm hd)
  have h12 := h1.and h2
  refine h12.imp_of_mem ?_
  intro a b ha hb hab
  obtain ⟨hb1, -, -⟩ := sorted_raw_wf S b hb
  have hle : a.start ≤ b.start := of_decide_eq_true hab.1
  rcases hab.2 with h | h
  · exact h
  · omega

end ExtractionWF

section RoundTrip

theorem slice_isInfix (S : Str) (a b : Nat) : slice S a b <:+: S :=
  ((List.take_prefix (b - a) (S.drop a)).isInfix).trans (List.drop_suffix a S).isInfix

theorem take_append_slice {S : Str} {a b : Nat} (hab : a ≤ b) :
    S.take a ++ slice S a b = S.take b := by
  conv_rhs => rw [show b = a + (b - a) by omega, List.take_add]
  rfl

theorem token_split_head {k : Nat} {u t : Str} (hu : u ≠ [])
    (heq : phToken k = u ++ t) (t' : Str) (hth : t = lb :: t') : False := by
  obtain ⟨e, u'', rfl⟩ := List.exists_cons_of_ne_nil hu
  rw [phToken_cons] at heq
  simp only [List.cons_append, List.cons.injEq] at heq
  apply lb_not_mem_tokTail k
  rw [heq.2, hth]
  exact List.mem_append_right _ (List.mem_cons_self _ _)

theorem not_prefix_token_append {k k' : Nat} (hne : k ≠ k') {X : Str} :
    ¬ phToken k <+: phToken k' ++ X := by
  intro hp
  rcases prefix_append_cases hp with h | ⟨t, ht, -⟩
  · exact hne (phToken_prefix_inj h)
  · exact hne (phToken_prefix_inj ⟨t, ht.symm⟩).symm

theorem no_match_in_chunks (S : Str) (HS : ∀ j, 1 ≤ j → ¬ phToken j <:+: S)
    {k : Nat} (hk : 1 ≤ k) :
    ∀ (rs : List RawMatch) (k' cur : Nat), k < k' →
      ∀ v, v <:+ protectChunks S cur (attachTokens k' rs) → ¬ phToken k <+: v := by
  intro rs
  induction rs with
  | nil =>
    intro k' cur _ v hv hp
    simp only [attachTokens, protectChunks] at hv
    exact HS k hk (hp.isInfix.trans (hv.trans (List.drop_suffix cur S)).isInfix)
  | cons r rs' ih =>
    intro k' cur hkk v hv hp
    simp only [attachTokens, protectChunks] at hv
    rw [List.append_assoc] at hv
    rcases suffix_append_cases hv with ⟨u, hu, rfl⟩ | hv2
    · by_cases hunil : u = []
      · subst hunil
        rw [List.nil_append] at hp
        exact not_prefix_token_append (by omega) hp
      · rcases prefix_append_cases hp with hpu | ⟨t, hteq, htp⟩
        · exact HS k hk (hpu.isInfix.trans (hu.isInfix.trans (slice_isInfix S cur r.start)))
        · by_cases htnil : t = []
          · subst htnil
            rw [List.append_nil] at hteq
            refine HS k hk ?_
            rw [hteq]
            exact hu.isInfix.trans (slice_isInfix S cur r.start)
          · obtain ⟨d, t', rfl⟩ := List.exists_cons_of_ne_nil htnil
            have hd : d = lb := by
              rw [phToken_cons k', List.cons_append] at htp
              exact (List.cons_prefix_cons.mp htp).1
            exact token_split_head hunil hteq t' (by rw [hd])
    · rcases suffix_append_cases hv2 with ⟨u₂, hu₂, rfl⟩ | hv3
      · by_cases hu₂nil : u₂ = []
        · subst hu₂nil
          rw [List.nil_append] at hp
          exact ih (k' + 1) r.stop (by omega) _ (List.suffix_refl _) hp
        · obtain ⟨e, u₂', rfl⟩ := List.exists_cons_of_ne_nil hu₂nil
          have he : lb = e := by
            rw [phToken_cons k, List.cons_append] at hp
            exact (List.cons_prefix_cons.mp hp).1
          rw [phToken_cons k'] at hu₂
          rcases List.suffix_cons_iff.mp hu₂ with heq | hsuf
          · have hwhole : (e :: u₂') = phToken k' := by rw [phToken_cons k']; exact heq
            rw [hwhole] at hp
            exact not_prefix_token_append (by omega) hp
          · have hmem : e ∈ tokTail k' := head_mem_of_suffix hsuf
            rw [← he] at hmem
            exact lb_not_mem_tokTail k' hmem
      · exact ih (k' + 1) r.stop (by omega) v hv3 hp

theorem reinject_loop (S : Str) (HS : ∀ j, 1 ≤ j → ¬ phToken j <:+: S) :
    ∀ (rs : List RawMatch) (k cur : Nat), 1 ≤ k →
      (∀ r ∈ rs, SpanWF S r) →
      rs.Pairwise (fun a b => a.stop ≤ b.start) →
      cur ≤ S.length →
      (∀ r ∈ rs.head?, cur ≤ r.start) →
      List.foldl (fun out ph => replaceAll ph.token ph.value out)
        (S.take cur ++ protectChunks S cur (attachTokens k rs)) (attachTokens k rs) = S := by
  intro rs
  induction rs with
  | nil =>
    intro k cur _ _ _ _ _
    simp only [attachTokens, protectChunks, List.foldl_nil]
    exact List.take_append_drop cur S
  | cons r rs' ih =>
    intro k cur hk hwf hsep hcurlen hcurhead
    obtain ⟨hrs1, hrs2, hrv⟩ := hwf r (List.mem_cons_self _ _)
    have hcurstart : cur ≤ r.start := hcurhead r (by simp)
    simp only [attachTokens, protectChunks, List.foldl_cons]
    have hshape : S.take cur ++ (slice S cur r.start ++ phToken k ++
        protectChunks S r.stop (attachTokens (k + 1) rs')) =
        (S.take r.start ++ phToken k) ++ protectChunks S r.stop (attachTokens (k + 1) rs') := by
      rw [← take_append_slice hcurstart]
      simp [List.append_assoc]
    rw [hshape]
    have hrepl : replaceAll (phToken k) r.value
        ((S.take r.start ++ phToken k) ++ protectChunks S r.stop (attachTokens (k + 1) rs')) =
        S.take r.start ++ (r.value ++ protectChunks S r.stop (attachTokens (k + 1) rs')) := by
      apply replaceAll_exact (phToken k) r.value (S.take r.start)
        (protectChunks S r.stop (attachTokens (k + 1) rs')) (phToken_ne_nil k)
      · intro u hu hune hpfx
        rcases prefix_append_cases hpfx with hpu | ⟨t, hteq, htp⟩
        · exact HS k hk
            (hpu.isInfix.trans (hu.isInfix.trans (List.take_prefix r.start S).isInfix))
        · by_cases htnil : t = []
          · subst htnil
            rw [List.append_nil] at hteq
            refine HS k hk ?_
            rw [hteq]
            exact hu.isInfix.trans (List.take_prefix r.start S).isInfix
          · obtain ⟨d, t', rfl⟩ := List.exists_cons_of_ne_nil htnil
            have hd : d = lb := by
              rw [phToken_cons k, List.cons_append] at htp
              exact (List.cons_prefix_cons.mp htp).1
            exact token_split_head hune hteq t' (by rw [hd])
      · exact no_match_in_chunks S HS hk rs' (k + 1) r.stop (by omega)
    rw [hrepl, ← List.append_assoc, hrv, take_append_slice (Nat.le_of_lt hrs1)]
    refine ih (k + 1) r.stop (by omega) (fun x hx => hwf x (List.mem_cons_of_mem _ hx))
      (List.pairwise_cons.mp hsep).2 hrs2 ?_
    intro x hx
    exact (List.pairwise_cons.mp hsep).1 x (List.mem_of_mem_head? hx)

theorem foldl_count_self (vals : List Str) (mk1 mk2 : Str → Nat → Nat → Str) :
    ∀ (keys : List Str) (acc : List Str),
      keys.foldl (fun acc v =>
        if vals.count v < vals.count v then acc ++ [mk1 v (vals.count v) (vals.count v)]
        else if vals.count v < vals.count v then acc ++ [mk2 v (vals.count v) (vals.count v)]
        else acc) acc = acc := by
  intro keys
  induction keys with
  | nil => intro acc; rfl
  | cons v ks ih =>
    intro acc
    simp only [List.foldl_cons]
    rw [if_neg (Nat.lt_irrefl _), if_neg (Nat.lt_irrefl _)]
    exact ih acc

/-- Validation of a string against itself reports no error, whatever the
string: both value lists coincide, so all counts agree and the order check
passes. -/
theorem validate_self (S : Str) : validate_placeholders S S = [] := by
  simp only [validate_placeholders]
  rw [foldl_count_self]
  simp

theorem no_token_of_no_lb {S : Str} (h : lb ∉ S) : ∀ j, 1 ≤ j → ¬ phToken j <:+: S := by
  intro j _ hinf
  exact h (hinf.subset (by rw [phToken_cons]; exact List.mem_cons_self _ _))

end RoundTrip

section ClaimC1

/-- C1 (amended): for every source string `S` that contains no reserved
placeholder lock token `⟦PH_k⟧` (the spec reserves this lexicon and forbids it
in input), reinjecting the protected text of `S` into itself reproduces `S`
exactly, and `validate_placeholders S` applied to that result returns the
empty list. -/
theorem c1_roundtrip_validate (S : Str) (HS : ∀ j, 1 ≤ j → ¬ phToken j <:+: S) :
    reinject (protect_text S) (protect_text S).protectedText = S ∧
    validate_placeholders S
      (reinject (protect_text S) (protect_text S).protectedText) = [] := by
  have hrt : reinject (protect_text S) (protect_text S).protectedText = S := by
    have hmain := reinject_loop S HS (sortByLe leStart (collectAll S)) 1 0
      (Nat.le_refl 1) (sorted_raw_wf S) (sorted_raw_sep S) (Nat.zero_le _)
      (fun r _ => Nat.zero_le _)
    simpa [reinject, protect_text, extract_placeholders] using hmain
  exact ⟨hrt, by rw [hrt]; exact validate_self S⟩

/-- C1 counterexample: the claim quantifies over every source string, but for
a source that already contains the reserved token `⟦PH_1⟧` next to a real
placeholder the round trip is not the identity (`reinject` replaces both
occurrences of the token), so the unrestricted claim is false on the code. -/
theorem c1_roundtrip_counterexample :
    ¬ (reinject (protect_text (str "⟦PH_1⟧\n")) (protect_text (str "⟦PH_1⟧\n")).protectedText
          = str "⟦PH_1⟧\n" ∧
        validate_placeholders (str "⟦PH_1⟧\n")
          (reinject (protect_text (str "⟦PH_1⟧\n"))
            (protect_text (str "⟦PH_1⟧\n")).protectedText) = []) := by
  decide

/-- Witness for C1: the amended theorem applied at a concrete token-free
source containing a curly placeholder and a newline. -/
theorem c1_roundtrip_validate_witness :
    reinject (protect_text (str "Hi {0}, b\n")) (protect_text (str "Hi {0}, b\n")).protectedText
        = str "Hi {0}, b\n" ∧
      validate_placeholders (str "Hi {0}, b\n")
        (reinject (protect_text (str "Hi {0}, b\n"))
          (protect_text (str "Hi {0}, b\n")).protectedText) = [] :=
  c1_roundtrip_validate (str "Hi {0}, b\n") (no_token_of_no_lb (by decide))

end ClaimC1

section ChangeClassify

/-! Embedding of the change classifier of `tt_core/jobs/job_service.py`
(`classify_change` and its helpers).  Scores and ratios are modelled over the
rationals; the two thresholds 0.30 and 0.20 are exact in both models. -/

/-- Python `str.split()` with no argument: maximal non-whitespace runs. -/
def splitWsF : Nat → Str → List Str
  | _, [] => []
  | 0, _ => []
  | f + 1, c :: t =>
    if isSpaceA c then splitWsF f t
    else ((c :: t).takeWhile fun d => !isSpaceA d) ::
      splitWsF f ((c :: t).drop ((c :: t).takeWhile fun d => !isSpaceA d).length)

def splitWs (s : Str) : List Str := splitWsF s.length s

/-- Python `" ".join(parts)`. -/
def joinSpace : List Str → Str
  | [] => []
  | [x] => x
  | x :: y :: ys => x ++ ' ' :: joinSpace (y :: ys)

/-- `_normalize_change_text`. -/
def normalize_change_text (value : Str) : Str := joinSpace (splitWs value)

/-- The punctuation class of `_CHANGE_PUNCTUATION_PATTERN`
(`[.!?:;,'"“”‘’()\[\]{}]`); the apostrophe and the braces are written by code
point. -/
def isChangePunct (c : Char) : Bool :=
  c == '.' || c == '!' || c == '?' || c == ':' || c == ';' || c == ',' ||
  c == Char.ofNat 39 || c == '"' || c == '“' || c == '”' || c == '‘' || c == '’' ||
  c == '(' || c == ')' || c == '[' || c == ']' || c == Char.ofNat 123 || c == Char.ofNat 125

/-- `re.sub` of each maximal punctuation run by one space. -/
def punctToSpaceF : Nat → Str → Str
  | _, [] => []
  | 0, s => s
  | f + 1, c :: t =>
    if isChangePunct c then ' ' :: punctToSpaceF f (t.dropWhile isChangePunct)
    else c :: punctToSpaceF f t

def punctToSpace (s : Str) : Str := punctToSpaceF s.length s

/-- `_strip_change_punctuation`. -/
def strip_change_punctuation (value : Str) : Str :=
  normalize_change_text (punctToSpace value)

/-- `_relative_delta` over the rationals; `abs(new - old)` on naturals is the
truncated difference in the larger direction. -/
def relative_delta (oldValue newValue : Nat) : ℚ :=
  if oldValue = 0 then (if 0 < newValue then 1 else 0)
  else ((if oldValue ≤ newValue then newValue - oldValue else oldValue - newValue : ℕ) : ℚ) /
    (oldValue : ℚ)

/-- `_change_placeholder_signature`. -/
def change_placeholder_signature (value : Str) : List (String × Str) :=
  (extract_placeholders value).map fun item => (item.ptype, item.value)

structure ChangeClassification where
  decision : String
  confidence : Nat
  reason : Str
deriving Repr, DecidableEq

/-- `classify_change`: the five-step cascade of the source. -/
def classify_change (old new : Str) : ChangeClassification :=
  let normalized_old := normalize_change_text old
  let normalized_new := normalize_change_text new
  if normalized_old = normalized_new then
    ⟨"KEEP", 98, str "Whitespace-only source change."⟩
  else if change_placeholder_signature old ≠ change_placeholder_signature new then
    ⟨"FLAG", 25, str "Placeholder or tag pattern changed."⟩
  else if strip_change_punctuation normalized_old = strip_change_punctuation normalized_new then
    ⟨"KEEP", 92, str "Only punctuation changed."⟩
  else if relative_delta normalized_old.length normalized_new.length > 3 / 10 then
    ⟨"UPDATE", 78, str "Source length changed significantly."⟩
  else if relative_delta (splitWs normalized_old).length (splitWs normalized_new).length
      > 1 / 5 then
    ⟨"UPDATE", 78, str "Source word count changed significantly."⟩
  else ⟨"FLAG", 45, str "Source change needs manual review."⟩

/-- The decision table exactly as the claim states it: whitespace-equal KEEP
98; else signature change FLAG 25; else punctuation-equal KEEP 92; else
length delta over thirty percent OR word delta over twenty percent UPDATE 78;
else FLAG 45.  (The claim merges the two UPDATE rules with an `or`; the code
tests them in sequence.) -/
def classifyChangeSpec (old new : Str) : String × Nat :=
  if normalize_change_text old = normalize_change_text new then ("KEEP", 98)
  else if change_placeholder_signature old ≠ change_placeholder_signature new then ("FLAG", 25)
  else if strip_change_punctuation (normalize_change_text old) =
      strip_change_punctuation (normalize_change_text new) then ("KEEP", 92)
  else if relative_delta (normalize_change_text old).length
        (normalize_change_text new).length > 3 / 10 ∨
      relative_delta (splitWs (normalize_change_text old)).length
        (splitWs (normalize_change_text new)).length > 1 / 5 then ("UPDATE", 78)
  else ("FLAG", 45)

end ChangeClassify

section ClaimC4

/-- C4: `classify_change` realizes the claimed decision table (KEEP 98 on
whitespace-normalized equality, else FLAG 25 on differing placeholder
signatures, else KEEP 92 on punctuation-stripped equality, else UPDATE 78 on a
length delta over thirty percent or a word-count delta over twenty percent,
else FLAG 45), and the three cited examples classify as KEEP, UPDATE and FLAG
respectively. -/
theorem c4_classify_change :
    (∀ old new, ((classify_change old new).decision, (classify_change old new).confidence)
        = classifyChangeSpec old new) ∧
    (classify_change (str "Hello!") (str "Hello.")).decision = "KEEP" ∧
    (classify_change (str "Attack") (str "Attack right now")).decision = "UPDATE" ∧
    (classify_change (str "Use {0}") (str "Use {1}")).decision = "FLAG" := by
  refine ⟨?main, by decide, ?attack, by decide⟩
  case attack =>
    simp only [classify_change]
    rw [if_neg (by decide), if_neg (by decide), if_neg (by decide), if_pos ?_]
    have hl1 : (normalize_change_text (str "Attack")).length = 6 := rfl
    have hl2 : (normalize_change_text (str "Attack right now")).length = 16 := rfl
    rw [hl1, hl2]
    unfold relative_delta
    norm_num
  case main =>
  intro old new
  simp only [classify_change, classifyChangeSpec]
  by_cases h1 : normalize_change_text old = normalize_change_text new
  · simp [h1]
  · rw [if_neg h1, if_neg h1]
    by_cases h2 : change_placeholder_signature old ≠ change_placeholder_signature new
    · rw [if_pos h2, if_pos h2]
    · rw [if_neg h2, if_neg h2]
      by_cases h3 : strip_change_punctuation (normalize_change_text old) =
          strip_change_punctuation (normalize_change_text new)
      · rw [if_pos h3, if_pos h3]
      · rw [if_neg h3, if_neg h3]
        by_cases h4 : relative_delta (normalize_change_text old).length
            (normalize_change_text new).length > 3 / 10
        · rw [if_pos h4, if_pos (Or.inl h4)]
        · rw [if_neg h4]
          by_cases h5 : relative_delta (splitWs (normalize_change_text old)).length
              (splitWs (normalize_change_text new)).length > 1 / 5
          · rw [if_pos h5, if_pos (Or.inr h5)]
          · rw [if_neg h5, if_neg (by rintro (h | h) <;> [exact h4 h; exact h5 h])]

end ClaimC4

section QAChecks

/-! Embedding of `tt_core/qa/checks.py` (`check_glossary_compliance`) and the
`GlossaryExpectedEnforcement` record of `tt_core/glossary/enforcer.py`. -/

structure GlossaryExpectedEnforcement where
  token : Str
  source_term : Str
  target_term : Str
  enforced_text : Str
  start : Nat
  stop : Nat
  is_compound : Bool
deriving Repr, DecidableEq

/-- A JSON-ish span value: a string or an integer. -/
inductive SpanVal where
  | s (v : Str)
  | n (v : Nat)
deriving Repr, DecidableEq

structure QAIssue where
  issue_type : String
  severity : String
  message : Str
  span : List (String × SpanVal)
deriving Repr, DecidableEq

/-- Python substring test `needle in hay`. -/
def containsSub (needle hay : Str) : Bool := decide (needle <:+: hay)

/-- The regex `⟦TERM_\d+⟧` of `_GLOSSARY_TOKEN_PATTERN`, as an anchored
matcher. -/
def mTermToken : Str → Option Nat
  | '⟦' :: 'T' :: 'E' :: 'R' :: 'M' :: '_' :: rest =>
    let ds := rest.takeWhile Char.isDigit
    if ds.isEmpty then none
    else
      match rest.drop ds.length with
      | '⟧' :: _ => some (6 + ds.length + 1)
      | _ => none
  | _ => none

/-- `re.findall` for an anchored matcher: the matched substrings, left to
right and non-overlapping. -/
def findAllMatches (m : Str → Option Nat) (s : Str) : List Str :=
  (findIter m s).map fun pr => slice s pr.1 (pr.1 + pr.2)

/-- `_count_non_overlapping_occurrences`. -/
def countOcc (needle text : Str) : Nat :=
  if needle.isEmpty then 0
  else (findIter (fun s => if needle.isPrefixOf s then some needle.length else none) text).length

/-- First-occurrence-ordered counting, the model of `collections.Counter`
built from a list (Python dicts preserve insertion order). -/
def buildCounts (l : List Str) : List (Str × Nat) :=
  l.foldl
    (fun acc v =>
      if acc.any (fun pr => pr.1 == v) then
        acc.map fun pr => if pr.1 == v then (pr.1, pr.2 + 1) else pr
      else acc ++ [(v, 1)])
    []

def tokenMissingIssue (e : GlossaryExpectedEnforcement) : QAIssue :=
  ⟨"glossary_violation", "error",
    str "Glossary lock token \x27" ++ e.token ++
      str "\x27 was modified or removed before reinjection.",
    [("token", SpanVal.s e.token), ("source_term", SpanVal.s e.source_term)]⟩

def tokenSurvivedIssue (token : Str) : QAIssue :=
  ⟨"glossary_violation", "error",
    str "Glossary lock token \x27" ++ token ++ str "\x27 was not reinjected in final output.",
    [("token", SpanVal.s token)]⟩

def termMissingIssue (enforced_text : Str) (expected_count found_count : Nat) : QAIssue :=
  ⟨"glossary_violation", "error",
    str "Missing enforced glossary term \x27" ++ enforced_text ++
      str "\x27 (expected at least " ++ natRepr expected_count ++ str ", found " ++
      natRepr found_count ++ str ").",
    [("enforced_text", SpanVal.s enforced_text), ("expected_count", SpanVal.n expected_count)]⟩

/-- `check_glossary_compliance`: early return on an empty enforcement list,
then the three issue-producing passes of the source, in order. -/
def check_glossary_compliance (expected_enforcements : List GlossaryExpectedEnforcement)
    (final_text : Str) (translated_with_tokens : Option Str) : List QAIssue :=
  if expected_enforcements = [] then []
  else
    let issues1 :=
      match translated_with_tokens with
      | none => []
      | some tr =>
        expected_enforcements.foldl
          (fun acc e => if containsSub e.token tr then acc else acc ++ [tokenMissingIssue e]) []
    let unresolved := sortByLe lexLe (dedupKeys (findAllMatches mTermToken final_text))
    let issues2 := unresolved.map tokenSurvivedIssue
    let issues3 :=
      (buildCounts ((expected_enforcements.filter fun e => !e.enforced_text.isEmpty).map
          fun e => e.enforced_text)).foldl
        (fun acc pr =>
          if pr.2 ≤ countOcc pr.1 final_text then acc
          else acc ++ [termMissingIssue pr.1 pr.2 (countOcc pr.1 final_text)]) []
    issues1 ++ issues2 ++ issues3

end QAChecks

section ClaimC2

theorem takeWhile_digits_append {ds : Str} (hds : ∀ c ∈ ds, c.isDigit = true) (rest : Str) :
    (ds ++ '⟧' :: rest).takeWhile Char.isDigit = ds := by
  induction ds with
  | nil => simp [List.takeWhile_cons]
  | cons c t ih =>
    have hc : c.isDigit = true := hds c (List.mem_cons_self _ _)
    simp only [List.cons_append, List.takeWhile_cons, hc, if_true]
    rw [ih fun d hd => hds d (List.mem_cons_of_mem _ hd)]

theorem mTermToken_at {ds t : Str} (hne : ds ≠ []) (hds : ∀ c ∈ ds, c.isDigit = true) :
    mTermToken ((str "⟦TERM_" ++ ds ++ str "⟧") ++ t) = some (6 + ds.length + 1) := by
  have hshape : (str "⟦TERM_" ++ ds ++ str "⟧") ++ t =
      '⟦' :: 'T' :: 'E' :: 'R' :: 'M' :: '_' :: (ds ++ '⟧' :: t) := by
    simp [str]
  rw [hshape]
  unfold mTermToken
  simp only
  rw [takeWhile_digits_append hds t]
  rw [if_neg (by simpa using hne)]
  rw [List.drop_left ds ('⟧' :: t)]
  rfl

theorem findIterF_ne_nil {m : Str → Option Nat} :
    ∀ f s pos, s.length ≤ f →
      (∃ u w, s = u ++ w ∧ ∃ n, m w = some (n + 1) ∧ n + 1 ≤ w.length) →
      findIterF m f s pos ≠ [] := by
  intro f
  induction f with
  | zero =>
    rintro s pos hf ⟨u, w, rfl, n, -, hlen⟩
    exfalso
    simp only [List.length_append] at hf
    omega
  | succ f ih =>
    rintro s pos hf ⟨u, w, rfl, n, hm, hlen⟩
    cases u with
    | nil =>
      rw [List.nil_append]
      obtain ⟨c, t, rfl⟩ : ∃ c t, w = c :: t := by
        cases w with
        | nil => simp at hlen
        | cons c t => exact ⟨c, t, rfl⟩
      rw [findIterF, hm]
      exact List.cons_ne_nil _ _
    | cons c u' =>
      rw [List.cons_append]
      have hrec : findIterF m f (u' ++ w) (pos + 1) ≠ [] := by
        refine ih (u' ++ w) (pos + 1) ?_ ⟨u', w, rfl, n, hm, hlen⟩
        simp only [List.cons_append, List.length_cons] at hf
        simp only [List.length_append] at hf ⊢
        omega
      rcases hm2 : m (c :: (u' ++ w)) with _ | k
      · rw [findIterF, hm2]
        exact hrec
      · cases k with
        | zero => rw [findIterF, hm2]; exact hrec
        | succ k => rw [findIterF, hm2]; exact List.cons_ne_nil _ _

theorem foldl_dedup_len : ∀ (l acc : List Str),
    acc.length ≤ (l.foldl (fun acc v => if acc.contains v then acc else acc ++ [v]) acc).length := by
  intro l
  induction l with
  | nil => intro acc; exact Nat.le_refl _
  | cons x xs ih =>
    intro acc
    simp only [List.foldl_cons]
    by_cases h : acc.contains x
    · rw [if_pos h]; exact ih acc
    · rw [if_neg h]
      refine Nat.le_trans ?_ (ih (acc ++ [x]))
      simp

theorem dedupKeys_ne_nil {l : List Str} (h : l ≠ []) : dedupKeys l ≠ [] := by
  obtain ⟨x, xs, rfl⟩ := List.exists_cons_of_ne_nil h
  intro hcontra
  have hlen := foldl_dedup_len xs [x]
  have hstep : dedupKeys (x :: xs) =
      xs.foldl (fun acc v => if acc.contains v then acc else acc ++ [v]) [x] := by
    simp [dedupKeys]
  rw [hstep] at hcontra
  rw [hcontra] at hlen
  simp at hlen

/-- C2 (amended): whenever the enforcement list is non-empty, any glossary
lock token `⟦TERM_k⟧` (`k` a non-empty digit string) surviving in the final
text makes `check_glossary_compliance` report at least one issue of type
`glossary_violation` with severity `error`. -/
theorem c2_glossary_violation (expected : List GlossaryExpectedEnforcement) (final : Str)
    (tr : Option Str) (hne : expected ≠ [])
    (htok : ∃ ds : Str, ds ≠ [] ∧ (∀ c ∈ ds, c.isDigit = true) ∧
      (str "⟦TERM_" ++ ds ++ str "⟧") <:+: final) :
    ∃ issue ∈ check_glossary_compliance expected final tr,
      issue.issue_type = "glossary_violation" ∧ issue.severity = "error" := by
  obtain ⟨ds, hds0, hds, hinf⟩ := htok
  have hmatches : findAllMatches mTermToken final ≠ [] := by
    obtain ⟨u, t, hut⟩ := hinf
    unfold findAllMatches findIter
    intro hmap
    refine findIterF_ne_nil final.length final 0 (Nat.le_refl _)
      ⟨u, (str "⟦TERM_" ++ ds ++ str "⟧") ++ t, by rw [← hut, List.append_assoc], ?_⟩
      (List.map_eq_nil_iff.mp hmap)
    refine ⟨6 + ds.length, mTermToken_at hds0 hds, ?_⟩
    have h6 : (str "⟦TERM_").length = 6 := rfl
    have h1 : (str "⟧").length = 1 := rfl
    simp only [List.length_append, h6, h1]
    omega
  have hunres : sortByLe lexLe (dedupKeys (findAllMatches mTermToken final)) ≠ [] := by
    intro hcontra
    apply dedupKeys_ne_nil hmatches
    have := (sortByLe_perm lexLe (dedupKeys (findAllMatches mTermToken final))).length_eq
    rw [hcontra] at this
    exact List.eq_nil_of_length_eq_zero this.symm
  obtain ⟨x, xs, hxs⟩ := List.exists_cons_of_ne_nil hunres
  refine ⟨tokenSurvivedIssue x, ?_, rfl, rfl⟩
  simp only [check_glossary_compliance, if_neg hne]
  refine List.mem_append_left _ (List.mem_append_right _ ?_)
  rw [hxs]
  exact List.mem_map_of_mem _ (List.mem_cons_self _ _)

/-- C2 counterexample: with an empty enforcement list the check returns no
issues even though the final text consists of the surviving lock token
`⟦TERM_1⟧`, so the claim as stated (for every final text) is false. -/
theorem c2_glossary_counterexample :
    (str "⟦TERM_" ++ str "1" ++ str "⟧") <:+: str "⟦TERM_1⟧" ∧
      check_glossary_compliance [] (str "⟦TERM_1⟧") none = [] := by
  constructor
  · exact ⟨[], [], by decide⟩
  · rfl

/-- Witness for C2: a singleton enforcement list and a final text holding a
surviving token. -/
theorem c2_glossary_violation_witness :
    ∃ issue ∈ check_glossary_compliance
        [⟨str "⟦TERM_1⟧", str "DMG", str "SCH", str "SCH", 0, 3, false⟩]
        (str "x ⟦TERM_7⟧") none,
      issue.issue_type = "glossary_violation" ∧ issue.severity = "error" :=
  c2_glossary_violation _ _ none (by decide)
    ⟨str "7", by decide, by decide, ⟨str "x ", [], by decide⟩⟩

end ClaimC2

section TMNormalize

/-! Embedding of `tt_core/tm/normalize.py` and the exact-lookup path of
`tt_core/tm/tm_search.py` over a list model of the `tm_entries` table. -/

def toLowerStr (s : Str) : Str := s.map Char.toLower

/-- Python `str.strip()`. -/
def trimStr (s : Str) : Str :=
  ((s.dropWhile isSpaceA).reverse.dropWhile isSpaceA).reverse

/-- `re.sub(r"\s+", " ", s)`: each maximal whitespace run becomes one space. -/
def collapseWsF : Nat → Str → Str
  | _, [] => []
  | 0, s => s
  | f + 1, c :: t =>
    if isSpaceA c then ' ' :: collapseWsF f (t.dropWhile isSpaceA)
    else c :: collapseWsF f t

def collapseWs (s : Str) : Str := collapseWsF s.length s

/-- `normalize_source_text`: collapse internal whitespace, trim, lower-case. -/
def normalize_source_text (text : Str) : Str :=
  toLowerStr (collapseWs (trimStr text))

/-- `normalized_source_hash`.  SHA-256 is modelled as the identity on the
normalized text: the hash is a deterministic function of its input, which is
the only property the claims below use. -/
def normalized_source_hash (text : Str) : Str := normalize_source_text text

structure TMEntry where
  id : String
  project_id : String
  source_locale : String
  target_locale : String
  source_text : Str
  target_text : Str
  normalized_source_hash : Str
  origin : String
  origin_asset_id : Option String
  origin_row_ref : Option Str
  created_at : String
  updated_at : String
  last_used_at : Option String
  use_count : Nat
  quality_tag : String
deriving Repr, DecidableEq

/-- Strict lexicographic order on char lists by code point (the binary
collation SQLite applies to TEXT columns). -/
def lexLt : Str → Str → Bool
  | [], [] => false
  | [], _ :: _ => true
  | _ :: _, [] => false
  | a :: as_, b :: bs => if a < b then true else if b < a then false else lexLt as_ bs

/-- Whether row `a` sorts before row `b` under `ORDER BY updated_at DESC,
id DESC`. -/
def rowBefore (a b : TMEntry) : Bool :=
  lexLt b.updated_at.data a.updated_at.data ||
    (b.updated_at == a.updated_at && lexLt b.id.data a.id.data)

/-- `LIMIT 1` over the ordered rows: the first row under `rowBefore`. -/
def firstRow (rows : List TMEntry) : Option TMEntry :=
  rows.foldl
    (fun best r =>
      match best with
      | none => some r
      | some b => if rowBefore r b then some r else some b)
    none

def tmKeyMatches (project_id source_locale target_locale : String) (hash : Str)
    (r : TMEntry) : Bool :=
  r.project_id == project_id && r.source_locale == source_locale &&
    r.target_locale == target_locale && r.normalized_source_hash == hash

/-- `find_exact`: select the `tm_entries` rows with the four key columns equal
and return the first under `ORDER BY updated_at DESC, id DESC`, if any. -/
def find_exact (db : List TMEntry) (project_id source_locale target_locale : String)
    (source_text : Str) : Option TMEntry :=
  firstRow (db.filter
    (tmKeyMatches project_id source_locale target_locale (normalized_source_hash source_text)))

theorem char_toNat_ofNat {n : Nat} (h : n < 55296) : (Char.ofNat n).toNat = n := by
  unfold Char.ofNat
  rw [dif_pos (Or.inl h)]
  rfl

theorem char_eq_of_toNat_eq {a b : Char} (h : a.toNat = b.toNat) : a = b :=
  Char.eq_of_val_eq (UInt32.ext h)

theorem char_beq_toNat (a b : Char) : (a == b) = (a.toNat == b.toNat) := by
  by_cases h : a = b
  · subst h; simp
  · have h2 : a.toNat ≠ b.toNat := fun hc => h (char_eq_of_toNat_eq hc)
    simp [h, h2]

theorem isSpaceA_eq (c : Char) : isSpaceA c =
    (c.toNat == 32 || c.toNat == 9 || c.toNat == 10 || c.toNat == 13 ||
      c.toNat == 11 || c.toNat == 12) := by
  unfold isSpaceA
  rw [char_beq_toNat c ' ', char_beq_toNat c '\t', char_beq_toNat c '\n',
    char_beq_toNat c '\r', char_beq_toNat c '\x0b', char_beq_toNat c '\x0c']
  rfl

theorem isSpaceA_toLower (c : Char) : isSpaceA c.toLower = isSpaceA c := by
  unfold Char.toLower
  by_cases h : c.toNat ≥ 65 ∧ c.toNat ≤ 90
  · rw [if_pos h]
    rw [isSpaceA_eq, isSpaceA_eq, char_toNat_ofNat (by omega)]
    have hL : (c.toNat + 32 == 32 || c.toNat + 32 == 9 || c.toNat + 32 == 10 ||
        c.toNat + 32 == 13 || c.toNat + 32 == 11 || c.toNat + 32 == 12) = false := by
      simp only [Bool.or_eq_false_iff, beq_eq_false_iff_ne, ne_eq]
      omega
    have hR : (c.toNat == 32 || c.toNat == 9 || c.toNat == 10 || c.toNat == 13 ||
        c.toNat == 11 || c.toNat == 12) = false := by
      simp only [Bool.or_eq_false_iff, beq_eq_false_iff_ne, ne_eq]
      omega
    rw [hL, hR]
  · rw [if_neg h]

theorem dropWhile_map_toLower (t : Str) :
    (t.map Char.toLower).dropWhile isSpaceA = (t.dropWhile isSpaceA).map Char.toLower := by
  induction t with
  | nil => rfl
  | cons c t ih =>
    simp only [List.map_cons, List.dropWhile_cons, isSpaceA_toLower]
    by_cases h : isSpaceA c
    · rw [if_pos h, if_pos h, ih]
    · rw [if_neg h, if_neg h, List.map_cons]

theorem collapseWsF_map : ∀ (f : Nat) (s : Str),
    collapseWsF f (s.map Char.toLower) = (collapseWsF f s).map Char.toLower := by
  intro f
  induction f with
  | zero => intro s; cases s <;> rfl
  | succ f ih =>
    intro s
    cases s with
    | nil => rfl
    | cons c t =>
      simp only [List.map_cons, collapseWsF, isSpaceA_toLower]
      by_cases h : isSpaceA c
      · rw [if_pos h, if_pos h, dropWhile_map_toLower, ih]
        rfl
      · rw [if_neg h, if_neg h, ih]
        rfl

theorem collapseWs_toLower (s : Str) :
    collapseWs (toLowerStr s) = toLowerStr (collapseWs s) := by
  unfold collapseWs toLowerStr
  rw [List.length_map]
  exact collapseWsF_map s.length s

theorem normalize_eq_of_trim_lower_eq {q1 q2 : Str}
    (h : toLowerStr (trimStr q1) = toLowerStr (trimStr q2)) :
    normalize_source_text q1 = normalize_source_text q2 := by
  unfold normalize_source_text
  rw [← collapseWs_toLower, ← collapseWs_toLower, h]

end TMNormalize

section ClaimC7

/-- C7: `find_exact` returns the same result for any two query texts that
differ only in leading or trailing whitespace or in letter case (formally:
their stripped texts agree after lower-casing), because the lookup key is the
hash of the whitespace-collapsed, trimmed, lower-cased source. -/
theorem c7_find_exact_invariant (db : List TMEntry)
    (project_id source_locale target_locale : String) (q1 q2 : Str)
    (h : toLowerStr (trimStr q1) = toLowerStr (trimStr q2)) :
    find_exact db project_id source_locale target_locale q1 =
      find_exact db project_id source_locale target_locale q2 := by
  unfold find_exact normalized_source_hash
  rw [normalize_eq_of_trim_lower_eq h]

/-- Witness for C7: a whitespace-padded mixed-case query and its bare
lower-case form give the same lookup result on a one-row table. -/
theorem c7_find_exact_invariant_witness :
    find_exact [⟨"t1", "p1", "en", "de", str "Hello", str "Hallo",
        normalized_source_hash (str "Hello"), "approved", none, none,
        "2024", "2024", none, 0, "trusted"⟩] "p1" "en" "de" (str "  Hello\n") =
      find_exact [⟨"t1", "p1", "en", "de", str "Hello", str "Hallo",
        normalized_source_hash (str "Hello"), "approved", none, none,
        "2024", "2024", none, 0, "trusted"⟩] "p1" "en" "de" (str "hello") :=
  c7_find_exact_invariant _ "p1" "en" "de" _ _ (by decide)

end ClaimC7

section SearchFts

/-! Embedding of `_sanitize_fts_query` and `search_fts` from
`tt_core/tm/tm_search.py` over a list model of the `tm_fts` table.  The
FTS `MATCH` branch delegates ranking to the SQLite engine; it is modelled by
an oracle parameter that yields the ordered matching rows for a sanitized
query.  The claim under study only exercises the other branch. -/

/-- `_QUOTE_PATTERN.sub(" ", ...)`: each quote character becomes a space. -/
def quoteToSpace (q : Str) : Str :=
  q.map fun c => if c == '"' || c == Char.ofNat 39 then ' ' else c

/-- Anchored matcher for the token regex `[A-Za-z0-9]+`. -/
def mAlnumRun : Str → Option Nat
  | [] => none
  | c :: t =>
    if c.isAlphanum then some (((c :: t).takeWhile Char.isAlphanum).length) else none

def joinWith (sep : Str) : List Str → Str
  | [] => []
  | [x] => x
  | x :: y :: ys => x ++ sep ++ joinWith sep (y :: ys)

/-- `_sanitize_fts_query`: strip quotes, collect alphanumeric tokens,
deduplicate by lower-cased value keeping first-occurrence order, and join the
quoted tokens with OR. -/
def sanitize_fts_query (query_text : Str) : Str :=
  let tokens := findAllMatches mAlnumRun (quoteToSpace query_text)
  if tokens = [] then []
  else
    joinWith (str " OR ")
      ((dedupKeys (tokens.map toLowerStr)).map fun tok => '"' :: (tok ++ ['"']))

structure FtsRow where
  rowid : Nat
  project_id : String
  source_locale : String
  target_locale : String
  source_text : Str
  target_text : Str
  tm_id : String
deriving Repr, DecidableEq

structure TMHit where
  tm_id : String
  source_text : Str
  target_text : Str
deriving Repr, DecidableEq

def ftsFilter (project_id source_locale target_locale : String) (r : FtsRow) : Bool :=
  r.project_id == project_id && r.source_locale == source_locale &&
    r.target_locale == target_locale

/-- Whether `a` sorts before `b` under
`ORDER BY CASE WHEN source_text = :query_text THEN 0 ELSE 1 END, rowid DESC`. -/
def ftsOrderKeyLe (query_text : Str) (a b : FtsRow) : Bool :=
  (if a.source_text == query_text then 0 else 1) <
      (if b.source_text == query_text then (0 : Nat) else 1) ||
    ((a.source_text == query_text) == (b.source_text == query_text) && b.rowid ≤ a.rowid)

/-- The rows `search_fts` reads, in order: on a non-empty sanitized query the
FTS `MATCH` branch (the oracle), otherwise the locale-filtered rows ordered
by query-equality first and descending rowid; both truncated to
`max(1, limit)`. -/
def searchFtsRows (matchOracle : Str → List FtsRow) (db : List FtsRow)
    (project_id source_locale target_locale : String) (query_text : Str)
    (limit : Int) : List FtsRow :=
  let sanitized := sanitize_fts_query query_text
  let normalized_limit := (max 1 limit).toNat
  if sanitized ≠ [] then (matchOracle sanitized).take normalized_limit
  else
    (sortByLe (ftsOrderKeyLe query_text)
      (db.filter (ftsFilter project_id source_locale target_locale))).take normalized_limit

/-- `search_fts`: the ordered rows projected to `TMHit`. -/
def search_fts (matchOracle : Str → List FtsRow) (db : List FtsRow)
    (project_id source_locale target_locale : String) (query_text : Str)
    (limit : Int) : List TMHit :=
  (searchFtsRows matchOracle db project_id source_locale target_locale query_text limit).map
    fun r => ⟨r.tm_id, r.source_text, r.target_text⟩

theorem findIterF_alnum_none : ∀ (f : Nat) (s : Str) (pos : Nat),
    (∀ c ∈ s, c.isAlphanum = false) → findIterF mAlnumRun f s pos = [] := by
  intro f
  induction f with
  | zero => intro s pos _; cases s <;> rfl
  | succ f ih =>
    intro s pos h
    cases s with
    | nil => rfl
    | cons c t =>
      have hm : mAlnumRun (c :: t) = none := by
        have heq : mAlnumRun (c :: t) =
            if c.isAlphanum then some (((c :: t).takeWhile Char.isAlphanum).length)
            else none := rfl
        rw [heq, if_neg (by rw [h c (List.mem_cons_self _ _)]; simp)]
      rw [findIterF, hm]
      exact ih t (pos + 1) fun d hd => h d (List.mem_cons_of_mem _ hd)

theorem sanitize_empty_of_no_alnum {q : Str} (h : ∀ c ∈ q, c.isAlphanum = false) :
    sanitize_fts_query q = [] := by
  have htok : findAllMatches mAlnumRun (quoteToSpace q) = [] := by
    unfold findAllMatches findIter
    rw [findIterF_alnum_none]
    · rfl
    · intro c hc
      simp only [quoteToSpace, List.mem_map] at hc
      obtain ⟨d, hd, hdc⟩ := hc
      by_cases hq : (d == '"' || d == Char.ofNat 39) = true
      · rw [hq, if_pos rfl] at hdc
        rw [← hdc]
        rfl
      · rw [if_neg (by simpa using hq)] at hdc
        rw [← hdc]
        exact h d hd
  simp [sanitize_fts_query, htok]

end SearchFts

section ClaimC9

/-- The row order the claim describes: rows whose source text equals the raw
query come first, then descending rowid within each group. -/
def ftsClaimOrder (q : Str) (a b : FtsRow) : Prop :=
  (a.source_text = q ∧ b.source_text ≠ q) ∨
    ((a.source_text = q ↔ b.source_text = q) ∧ b.rowid ≤ a.rowid)

theorem ftsOrderKeyLe_total (q : Str) :
    ∀ a b, ftsOrderKeyLe q a b = true ∨ ftsOrderKeyLe q b a = true := by
  intro a b
  unfold ftsOrderKeyLe
  by_cases ha : a.source_text == q <;> by_cases hb : b.source_text == q <;>
    simp [ha, hb] <;> omega

theorem ftsOrderKeyLe_trans (q : Str) :
    ∀ a b c, ftsOrderKeyLe q a b = true → ftsOrderKeyLe q b c = true →
      ftsOrderKeyLe q a c = true := by
  intro a b c hab hbc
  unfold ftsOrderKeyLe at hab hbc ⊢
  by_cases ha : a.source_text == q <;> by_cases hb : b.source_text == q <;>
    by_cases hc : c.source_text == q <;>
    simp [ha, hb, hc] at hab hbc ⊢ <;> omega

theorem ftsClaimOrder_of_le {q : Str} {a b : FtsRow}
    (h : ftsOrderKeyLe q a b = true) : ftsClaimOrder q a b := by
  unfold ftsOrderKeyLe at h
  unfold ftsClaimOrder
  by_cases ha : a.source_text = q <;> by_cases hb : b.source_text = q <;>
    simp [ha, hb] at h ⊢ <;> omega

/-- C9 (amended): when the query text has no alphanumeric characters (so the
sanitized FTS query is empty), `search_fts` returns at most `max(1, limit)`
rows, each drawn from the rows matching the (project, source locale, target
locale) filter, ordered with rows whose source text equals the raw query
first and then by descending rowid, and the result is non-empty whenever some
indexed row matches the filter. -/
theorem c9_search_fts_props (oracle : Str → List FtsRow) (db : List FtsRow)
    (p sl tl : String) (q : Str) (limit : Int)
    (hq : ∀ c ∈ q, c.isAlphanum = false) :
    (search_fts oracle db p sl tl q limit).length ≤ (max 1 limit).toNat ∧
    (∀ hit ∈ search_fts oracle db p sl tl q limit,
      ∃ r ∈ db, ftsFilter p sl tl r = true ∧
        hit = ⟨r.tm_id, r.source_text, r.target_text⟩) ∧
    (searchFtsRows oracle db p sl tl q limit).Pairwise (ftsClaimOrder q) ∧
    ((∃ r ∈ db, ftsFilter p sl tl r = true) →
      search_fts oracle db p sl tl q limit ≠ []) := by
  have hsan := sanitize_empty_of_no_alnum hq
  have hrows : searchFtsRows oracle db p sl tl q limit =
      (sortByLe (ftsOrderKeyLe q) (db.filter (ftsFilter p sl tl))).take (max 1 limit).toNat := by
    simp [searchFtsRows, hsan]
  refine ⟨?_, ?_, ?_, ?_⟩
  · unfold search_fts
    rw [hrows, List.length_map, List.length_take]
    exact Nat.min_le_left _ _
  · intro hit hmem
    unfold search_fts at hmem
    rw [hrows] at hmem
    obtain ⟨r, hr, rfl⟩ := List.mem_map.mp hmem
    have hr2 : r ∈ sortByLe (ftsOrderKeyLe q) (db.filter (ftsFilter p sl tl)) :=
      List.take_subset _ _ hr
    have hr3 : r ∈ db.filter (ftsFilter p sl tl) :=
      (sortByLe_perm (ftsOrderKeyLe q) _).subset hr2
    have hr4 := List.mem_filter.mp hr3
    exact ⟨r, hr4.1, hr4.2, rfl⟩
  · rw [hrows]
    refine List.Pairwise.sublist (List.take_sublist _ _) ?_
    exact (pairwise_sortByLe (ftsOrderKeyLe_total q) (ftsOrderKeyLe_trans q) _).imp
      ftsClaimOrder_of_le
  · rintro ⟨r, hrdb, hrf⟩
    unfold search_fts
    rw [hrows]
    intro hcontra
    have hrmem : r ∈ db.filter (ftsFilter p sl tl) := List.mem_filter.mpr ⟨hrdb, hrf⟩
    have hlen : 1 ≤ (db.filter (ftsFilter p sl tl)).length :=
      List.length_pos.mpr (List.ne_nil_of_mem hrmem)
    have hslen := (sortByLe_perm (ftsOrderKeyLe q) (db.filter (ftsFilter p sl tl))).length_eq
    have hnlim : 1 ≤ (max 1 limit).toNat := by
      have := Int.toNat_le_toNat (le_max_left 1 limit)
      simpa using this
    have := congrArg List.length hcontra
    simp only [List.length_map, List.length_take, List.length_nil] at this
    omega

/-- C9 counterexample: the claim as stated is false on the code in two ways.
A non-empty index with no row matching the locale filter yields the empty
list, and `limit = 0` still yields one row because the code normalizes the
limit to `max(1, limit)`. -/
theorem c9_search_fts_counterexample :
    (search_fts (fun _ => []) [⟨1, "p2", "en", "de", str "hello", str "hallo", "t1"⟩]
        "p1" "en" "de" (str "!!!") 3 = [] ∧
      ([⟨1, "p2", "en", "de", str "hello", str "hallo", "t1"⟩] : List FtsRow) ≠ []) ∧
    (search_fts (fun _ => []) [⟨1, "p2", "en", "de", str "hello", str "hallo", "t1"⟩]
        "p2" "en" "de" (str "!!!") 0).length = 1 := by
  decide

/-- Witness for C9: the amended theorem at a two-row table, an all-punctuation
query and limit three. -/
theorem c9_search_fts_props_witness :
    (search_fts (fun _ => []) [⟨1, "p1", "en", "de", str "a", str "b", "t1"⟩,
        ⟨2, "p1", "en", "de", str "c", str "d", "t2"⟩] "p1" "en" "de"
          (str "?!") 3).length ≤ (max 1 (3 : Int)).toNat ∧
    (∀ hit ∈ search_fts (fun _ => []) [⟨1, "p1", "en", "de", str "a", str "b", "t1"⟩,
        ⟨2, "p1", "en", "de", str "c", str "d", "t2"⟩] "p1" "en" "de" (str "?!") 3,
      ∃ r ∈ [⟨1, "p1", "en", "de", str "a", str "b", "t1"⟩,
        (⟨2, "p1", "en", "de", str "c", str "d", "t2"⟩ : FtsRow)],
        ftsFilter "p1" "en" "de" r = true ∧
          hit = ⟨r.tm_id, r.source_text, r.target_text⟩) ∧
    (searchFtsRows (fun _ => []) [⟨1, "p1", "en", "de", str "a", str "b", "t1"⟩,
        ⟨2, "p1", "en", "de", str "c", str "d", "t2"⟩] "p1" "en" "de"
          (str "?!") 3).Pairwise (ftsClaimOrder (str "?!")) ∧
    ((∃ r ∈ [⟨1, "p1", "en", "de", str "a", str "b", "t1"⟩,
        (⟨2, "p1", "en", "de", str "c", str "d", "t2"⟩ : FtsRow)],
        ftsFilter "p1" "en" "de" r = true) →
      search_fts (fun _ => []) [⟨1, "p1", "en", "de", str "a", str "b", "t1"⟩,
        ⟨2, "p1", "en", "de", str "c", str "d", "t2"⟩] "p1" "en" "de" (str "?!") 3 ≠ []) :=
  c9_search_fts_props (fun _ => []) _ "p1" "en" "de" _ 3 (by decide)

end ClaimC9

section ClaimC10

/-- src/tt_core/tm/tm_store.py record_tm_use: one UPDATE over tm_entries that,
on every row whose id equals tm_id, increments use_count and sets last_used_at
to the current timestamp; the connection / engine plumbing around the
statement is identical in both branches. -/
def record_tm_use (now tm_id : String) (table : List TMEntry) : List TMEntry :=
  table.map (fun r =>
    if r.id = tm_id then
      { r with use_count := r.use_count + 1, last_used_at := some now }
    else r)

theorem record_tm_use_frame (now tm_id : String) :
    ∀ table : List TMEntry, (∀ r ∈ table, r.id ≠ tm_id) →
      record_tm_use now tm_id table = table := by
  intro table hno
  induction table with
  | nil => rfl
  | cons a t ih =>
    have ha : a.id ≠ tm_id := hno a (List.mem_cons_self a t)
    have ht : ∀ r ∈ t, r.id ≠ tm_id := fun r hr => hno r (List.mem_cons_of_mem a hr)
    simp only [record_tm_use, List.map_cons, if_neg ha]
    simpa [record_tm_use] using ih ht

/-- C10: record_tm_use keeps the table length, and at every index the updated
row agrees with the old row on every column except use_count and last_used_at;
when the row id equals tm_id, use_count grows by exactly one and last_used_at
becomes the timestamp, and otherwise the row is unchanged; when no row has the
id, the whole table is unchanged. -/
theorem c10_record_tm_use (now tm_id : String) (table : List TMEntry) :
    (record_tm_use now tm_id table).length = table.length ∧
    (∀ (i : Nat) (r : TMEntry), table[i]? = some r →
      ∃ r2, (record_tm_use now tm_id table)[i]? = some r2 ∧
        r2.id = r.id ∧ r2.project_id = r.project_id ∧
        r2.source_locale = r.source_locale ∧ r2.target_locale = r.target_locale ∧
        r2.source_text = r.source_text ∧ r2.target_text = r.target_text ∧
        r2.normalized_source_hash = r.normalized_source_hash ∧
        r2.origin = r.origin ∧ r2.origin_asset_id = r.origin_asset_id ∧
        r2.origin_row_ref = r.origin_row_ref ∧ r2.created_at = r.created_at ∧
        r2.updated_at = r.updated_at ∧ r2.quality_tag = r.quality_tag ∧
        (r.id = tm_id → r2.use_count = r.use_count + 1 ∧ r2.last_used_at = some now) ∧
        (r.id ≠ tm_id → r2 = r)) ∧
    ((∀ r ∈ table, r.id ≠ tm_id) → record_tm_use now tm_id table = table) := by
  refine ⟨by simp [record_tm_use], ?_, record_tm_use_frame now tm_id table⟩
  intro i r h
  unfold record_tm_use
  refine ⟨(if r.id = tm_id then
      { r with use_count := r.use_count + 1, last_used_at := some now } else r), ?_, ?_⟩
  · simp [List.getElem?_map, h]
  · by_cases hid : r.id = tm_id <;> simp [hid]

end ClaimC10

section ReviewUpsert

/-- A row of approved_translations (db/migrations.py v1 schema): unique index
on (segment_id, target_locale). -/
structure ApprovedRow where
  id : String
  segment_id : String
  target_locale : String
  final_text : Str
  status : String
  approved_by : String
  approved_at : String
  revision_of_id : Option String
  is_pinned : Bool
deriving Repr, DecidableEq

/-- A row of segments, restricted to the columns upsert_approved_translation
reads. -/
structure SegmentRow where
  id : String
  asset_id : String
  source_locale : String
  source_text : Str
  sheet_name : String
  row_index : Nat
deriving Repr, DecidableEq

/-- A row of assets, restricted to the columns upsert_approved_translation
reads. -/
structure AssetRow where
  id : String
  project_id : String
deriving Repr, DecidableEq

/-- The tables upsert_approved_translation touches inside one transaction. -/
structure ReviewDb where
  approved : List ApprovedRow
  segments : List SegmentRow
  assets : List AssetRow
  tm : List TMEntry
  tm_fts : List FtsRow
deriving Repr, DecidableEq

/-- The conflict key of the approved_translations upsert:
(segment_id, target_locale). -/
def approvedKey (segment_id target_locale : String) (r : ApprovedRow) : Bool :=
  r.segment_id == segment_id && r.target_locale == target_locale

/-- The INSERT ... ON CONFLICT(segment_id, target_locale) DO UPDATE statement
of upsert_approved_translation: a conflicting row keeps its id and gets
final_text, status, approved_by and approved_at from the excluded row;
otherwise a fresh row is inserted. -/
def upsertApprovedRow (newId now segment_id target_locale approved_by : String)
    (final_text : Str) (table : List ApprovedRow) : List ApprovedRow :=
  if table.any (approvedKey segment_id target_locale) then
    table.map (fun r =>
      if approvedKey segment_id target_locale r then
        { r with final_text := final_text, status := "approved",
                 approved_by := approved_by, approved_at := now }
      else r)
  else
    table ++ [⟨newId, segment_id, target_locale, final_text, "approved",
      approved_by, now, none, false⟩]

/-- The segments INNER JOIN assets lookup of upsert_approved_translation,
LIMIT 1. -/
def segmentJoin (db : ReviewDb) (segment_id : String) :
    Option (AssetRow × SegmentRow) :=
  ((db.segments.filter (fun s => s.id == segment_id)).flatMap (fun s =>
    (db.assets.filter (fun a => a.id == s.asset_id)).map (fun a => (a, s)))).head?

/-- The DELETE FROM tm_fts WHERE tm_id = :tm_id followed by the INSERT INTO
tm_fts at the end of _upsert_tm_entry_on_connection. -/
def tmFtsReplace (nextRowid : Nat) (project_id source_locale target_locale : String)
    (source_text target_text : Str) (tm_id : String) (fts : List FtsRow) :
    List FtsRow :=
  (fts.filter (fun r => !(r.tm_id == tm_id))) ++
    [⟨nextRowid, project_id, source_locale, target_locale, source_text,
      target_text, tm_id⟩]

/-- src/tt_core/tm/tm_store.py _upsert_tm_entry_on_connection: select the
existing tm_entries row with the four key columns equal (ORDER BY updated_at
DESC, id DESC LIMIT 1); when none exists insert a fresh row with use_count 0
and last_used_at NULL, otherwise UPDATE that row in place (source/target
text, origin fields, quality_tag, updated_at); then refresh the tm_fts row
for that tm_id. Returns the tm id with the new table states. -/
def upsert_tm_entry_on_connection (newId now : String) (nextRowid : Nat)
    (project_id source_locale target_locale : String)
    (source_text target_text : Str) (origin : String)
    (origin_asset_id : Option String) (origin_row_ref : Option Str)
    (quality_tag : String) (tm : List TMEntry) (fts : List FtsRow) :
    String × List TMEntry × List FtsRow :=
  match firstRow (tm.filter (tmKeyMatches project_id source_locale target_locale
      (normalized_source_hash source_text))) with
  | none =>
      (newId,
        tm ++ [⟨newId, project_id, source_locale, target_locale, source_text,
          target_text, normalized_source_hash source_text, origin,
          origin_asset_id, origin_row_ref, now, now, none, 0, quality_tag⟩],
        tmFtsReplace nextRowid project_id source_locale target_locale
          source_text target_text newId fts)
  | some existing =>
      (existing.id,
        tm.map (fun r =>
          if r.id = existing.id then
            { r with source_text := source_text, target_text := target_text,
                     origin := origin, origin_asset_id := origin_asset_id,
                     origin_row_ref := origin_row_ref,
                     quality_tag := quality_tag, updated_at := now }
          else r),
        tmFtsReplace nextRowid project_id source_locale target_locale
          source_text target_text existing.id fts)

/-- src/tt_core/review/review_service.py upsert_approved_translation: inside
one transaction, upsert the approved_translations row for (segment_id,
target_locale), look up the segment joined to its asset (a missing segment
raises, rolling the transaction back), upsert the TM entry with origin
"approved" and quality_tag "trusted", and return the id selected back for
that (segment_id, target_locale). -/
def upsert_approved_translation (newApprovedId newTmId now : String)
    (nextRowid : Nat) (db : ReviewDb) (segment_id target_locale : String)
    (final_text : Str) (approved_by : String) :
    Except String (String × ReviewDb) :=
  match segmentJoin db segment_id with
  | none => Except.error ("Segment not found for approval: " ++ segment_id)
  | some (a, s) =>
      match ((upsertApprovedRow newApprovedId now segment_id target_locale
          approved_by final_text db.approved).filter
            (approvedKey segment_id target_locale)).head? with
      | none => Except.error "Failed to persist approved translation"
      | some row =>
          Except.ok (row.id,
            { approved := upsertApprovedRow newApprovedId now segment_id
                target_locale approved_by final_text db.approved
              segments := db.segments
              assets := db.assets
              tm := (upsert_tm_entry_on_connection newTmId now nextRowid
                a.project_id s.source_locale target_locale s.source_text
                final_text "approved" (some s.asset_id)
                (some (str s.sheet_name ++ ':' :: natRepr s.row_index))
                "trusted" db.tm db.tm_fts).2.1
              tm_fts := (upsert_tm_entry_on_connection newTmId now nextRowid
                a.project_id s.source_locale target_locale s.source_text
                final_text "approved" (some s.asset_id)
                (some (str s.sheet_name ++ ':' :: natRepr s.row_index))
                "trusted" db.tm db.tm_fts).2.2 })

end ReviewUpsert

section ReviewLemmas

theorem countP_map_of_pres {α : Type} (p : α → Bool) (f : α → α)
    (hp : ∀ r, p (f r) = p r) (l : List α) :
    (l.map f).countP p = l.countP p := by
  induction l with
  | nil => rfl
  | cons x t ih => simp [List.countP_cons, hp, ih]

theorem foldl_best_some (t : List TMEntry) (b : TMEntry) :
    ∃ e, t.foldl
      (fun best r =>
        match best with
        | none => some r
        | some b0 => if rowBefore r b0 then some r else some b0)
      (some b) = some e := by
  induction t generalizing b with
  | nil => exact ⟨b, rfl⟩
  | cons x t ih =>
    simp only [List.foldl_cons]
    by_cases h : rowBefore x b
    · simpa [h] using ih x
    · simpa [h] using ih b

theorem foldl_best_mem :
    ∀ (t : List TMEntry) (acc : Option TMEntry) (e : TMEntry),
      t.foldl
        (fun best r =>
          match best with
          | none => some r
          | some b0 => if rowBefore r b0 then some r else some b0)
        acc = some e → acc = some e ∨ e ∈ t := by
  intro t
  induction t with
  | nil => intro acc e h; exact Or.inl h
  | cons x t ih =>
    intro acc e h
    simp only [List.foldl_cons] at h
    rcases ih _ e h with h2 | h2
    · match acc with
      | none =>
        simp only [Option.some.injEq] at h2
        exact Or.inr (h2 ▸ List.mem_cons_self x t)
      | some b =>
        by_cases hb : rowBefore x b
        · simp only [hb, if_true, Option.some.injEq] at h2
          exact Or.inr (h2 ▸ List.mem_cons_self x t)
        · simp only [hb, if_false] at h2
          exact Or.inl h2
    · exact Or.inr (List.mem_cons_of_mem x h2)

theorem firstRow_mem {rows : List TMEntry} {e : TMEntry}
    (h : firstRow rows = some e) : e ∈ rows := by
  rcases foldl_best_mem rows none e h with h2 | h2
  · cases h2
  · exact h2

theorem firstRow_eq_none {rows : List TMEntry} (h : firstRow rows = none) :
    rows = [] := by
  cases rows with
  | nil => rfl
  | cons a t =>
    exfalso
    obtain ⟨e, he⟩ := foldl_best_some t a
    have h2 : t.foldl
        (fun best r =>
          match best with
          | none => some r
          | some b0 => if rowBefore r b0 then some r else some b0)
        (some a) = none := h
    rw [he] at h2
    cases h2

end ReviewLemmas

section ReviewFacts

theorem upsertApprovedRow_props (newId now segment_id target_locale approved_by : String)
    (final_text : Str) (table : List ApprovedRow)
    (hA : ∀ sg l, table.countP (approvedKey sg l) ≤ 1) :
    (∀ sg l, (upsertApprovedRow newId now segment_id target_locale approved_by
        final_text table).countP (approvedKey sg l) ≤ 1) ∧
    (upsertApprovedRow newId now segment_id target_locale approved_by
      final_text table).countP (approvedKey segment_id target_locale) = 1 ∧
    (table.any (approvedKey segment_id target_locale) = true →
      (upsertApprovedRow newId now segment_id target_locale approved_by
        final_text table).length = table.length) := by
  unfold upsertApprovedRow
  by_cases hAny : table.any (approvedKey segment_id target_locale) = true
  · rw [if_pos hAny]
    have hpres : ∀ sg l r, approvedKey sg l
        (if approvedKey segment_id target_locale r then
          { r with final_text := final_text, status := "approved",
                   approved_by := approved_by, approved_at := now }
        else r) = approvedKey sg l r := by
      intro sg l r
      by_cases hk : approvedKey segment_id target_locale r
      · rw [if_pos hk]; simp [approvedKey]
      · rw [if_neg hk]
    refine ⟨?_, ?_, fun _ => by simp⟩
    · intro sg l
      rw [countP_map_of_pres (approvedKey sg l) _ (hpres sg l)]
      exact hA sg l
    · rw [countP_map_of_pres (approvedKey segment_id target_locale) _
        (hpres segment_id target_locale)]
      obtain ⟨x, hx, hpx⟩ := List.any_eq_true.mp hAny
      have hpos : 0 < table.countP (approvedKey segment_id target_locale) :=
        List.countP_pos.mpr ⟨x, hx, hpx⟩
      have := hA segment_id target_locale
      omega
  · rw [if_neg hAny]
    have hzero : table.countP (approvedKey segment_id target_locale) = 0 := by
      rw [List.countP_eq_zero]
      intro r hr
      by_contra hcon
      exact hAny (List.any_eq_true.mpr ⟨r, hr, by simpa using hcon⟩)
    have hnewkey : approvedKey segment_id target_locale
        (⟨newId, segment_id, target_locale, final_text, "approved",
          approved_by, now, none, false⟩ : ApprovedRow) = true := by
      simp [approvedKey]
    refine ⟨?_, ?_, fun h => absurd h hAny⟩
    · intro sg l
      rw [List.countP_append]
      by_cases hm : approvedKey sg l
          (⟨newId, segment_id, target_locale, final_text, "approved",
            approved_by, now, none, false⟩ : ApprovedRow) = true
      · have hsg : segment_id = sg ∧ target_locale = l := by
          simpa [approvedKey] using hm
        have : table.countP (approvedKey sg l) = 0 := by
          rw [← hsg.1, ← hsg.2]; exact hzero
        simp [List.countP_cons, hm, this]
      · have hm2 : approvedKey sg l
            (⟨newId, segment_id, target_locale, final_text, "approved",
              approved_by, now, none, false⟩ : ApprovedRow) = false :=
          Bool.eq_false_iff.mpr hm
        have := hA sg l
        simp [List.countP_cons, hm2]
        omega
    · rw [List.countP_append, hzero]
      simp [List.countP_cons, hnewkey]

theorem upsert_tm_entry_props (newId now : String) (nextRowid : Nat)
    (p sl tl : String) (st tt : Str) (og : String) (oa : Option String)
    (orr : Option Str) (qt : String) (tm : List TMEntry) (fts : List FtsRow)
    (hT : tm.countP (tmKeyMatches p sl tl (normalized_source_hash st)) ≤ 1) :
    ((upsert_tm_entry_on_connection newId now nextRowid p sl tl st tt og oa orr
        qt tm fts).2.1.countP (tmKeyMatches p sl tl (normalized_source_hash st)) = 1) ∧
    (∃ r ∈ (upsert_tm_entry_on_connection newId now nextRowid p sl tl st tt og
        oa orr qt tm fts).2.1,
      tmKeyMatches p sl tl (normalized_source_hash st) r = true ∧
        r.origin = og ∧ r.quality_tag = qt) ∧
    (tm.any (tmKeyMatches p sl tl (normalized_source_hash st)) = true →
      (upsert_tm_entry_on_connection newId now nextRowid p sl tl st tt og oa
        orr qt tm fts).2.1.length = tm.length) := by
  unfold upsert_tm_entry_on_connection
  cases hF : firstRow (tm.filter (tmKeyMatches p sl tl (normalized_source_hash st))) with
  | none =>
    have hnil : tm.filter (tmKeyMatches p sl tl (normalized_source_hash st)) = [] :=
      firstRow_eq_none hF
    have hzero : tm.countP (tmKeyMatches p sl tl (normalized_source_hash st)) = 0 := by
      rw [List.countP_eq_length_filter, hnil]; rfl
    have hnewkey : tmKeyMatches p sl tl (normalized_source_hash st)
        (⟨newId, p, sl, tl, st, tt, normalized_source_hash st, og, oa, orr,
          now, now, none, 0, qt⟩ : TMEntry) = true := by
      simp [tmKeyMatches]
    refine ⟨?_, ?_, ?_⟩
    · rw [List.countP_append, hzero]
      simp [List.countP_cons, hnewkey]
    · exact ⟨⟨newId, p, sl, tl, st, tt, normalized_source_hash st, og, oa,
        orr, now, now, none, 0, qt⟩,
        List.mem_append_right _ (List.mem_singleton.mpr rfl), hnewkey, rfl, rfl⟩
    · intro hany
      obtain ⟨x, hx, hpx⟩ := List.any_eq_true.mp hany
      have : x ∈ tm.filter (tmKeyMatches p sl tl (normalized_source_hash st)) :=
        List.mem_filter.mpr ⟨hx, hpx⟩
      rw [hnil] at this
      cases this
  | some e =>
    have hmemf : e ∈ tm.filter (tmKeyMatches p sl tl (normalized_source_hash st)) :=
      firstRow_mem hF
    have he := List.mem_filter.mp hmemf
    have hpres : ∀ r : TMEntry, tmKeyMatches p sl tl (normalized_source_hash st)
        (if r.id = e.id then
          { r with source_text := st, target_text := tt, origin := og,
                   origin_asset_id := oa, origin_row_ref := orr,
                   quality_tag := qt, updated_at := now }
        else r) = tmKeyMatches p sl tl (normalized_source_hash st) r := by
      intro r
      by_cases hk : r.id = e.id <;> simp [tmKeyMatches, hk]
    refine ⟨?_, ?_, fun _ => by simp⟩
    · rw [countP_map_of_pres _ _ hpres]
      have hpos : 0 < tm.countP (tmKeyMatches p sl tl (normalized_source_hash st)) :=
        List.countP_pos.mpr ⟨e, he.1, he.2⟩
      omega
    · refine ⟨{ e with source_text := st
                       target_text := tt
                       origin := og
                       origin_asset_id := oa
                       origin_row_ref := orr
                       quality_tag := qt
                       updated_at := now }, ?_, ?_, rfl, rfl⟩
      · refine List.mem_map.mpr ⟨e, he.1, ?_⟩
        simp
      · have h2 := he.2
        simp [tmKeyMatches] at h2 ⊢
        exact h2

end ReviewFacts

section ClaimC6

/-- C6: when the approved segment exists (joined to its asset) and the
approved_translations and tm_entries tables satisfy their uniqueness
invariants, upsert_approved_translation succeeds and afterwards there is
still at most one approved_translations row per (segment, target locale) and
exactly one for the approved key — a repeat approval keeps the table length,
updating in place — and the same transaction leaves exactly one TM entry
keyed by (project, source locale, target locale, normalized source hash),
with origin "approved" and quality_tag "trusted"; a repeat approval keeps
the tm_entries length, updating that single row in place. -/
theorem c6_upsert_approved_translation
    (newApprovedId newTmId now : String) (nextRowid : Nat) (db : ReviewDb)
    (segment_id target_locale : String) (final_text : Str) (approved_by : String)
    (a : AssetRow) (s : SegmentRow)
    (hseg : segmentJoin db segment_id = some (a, s))
    (hA : ∀ sg l, db.approved.countP (approvedKey sg l) ≤ 1)
    (hT : db.tm.countP (tmKeyMatches a.project_id s.source_locale target_locale
      (normalized_source_hash s.source_text)) ≤ 1) :
    ∃ rid db2,
      upsert_approved_translation newApprovedId newTmId now nextRowid db
        segment_id target_locale final_text approved_by = Except.ok (rid, db2) ∧
      (∀ sg l, db2.approved.countP (approvedKey sg l) ≤ 1) ∧
      db2.approved.countP (approvedKey segment_id target_locale) = 1 ∧
      (db.approved.any (approvedKey segment_id target_locale) = true →
        db2.approved.length = db.approved.length) ∧
      db2.tm.countP (tmKeyMatches a.project_id s.source_locale target_locale
        (normalized_source_hash s.source_text)) = 1 ∧
      (∃ r ∈ db2.tm, tmKeyMatches a.project_id s.source_locale target_locale
        (normalized_source_hash s.source_text) r = true ∧
        r.origin = "approved" ∧ r.quality_tag = "trusted") ∧
      (db.tm.any (tmKeyMatches a.project_id s.source_locale target_locale
        (normalized_source_hash s.source_text)) = true →
        db2.tm.length = db.tm.length) := by
  obtain ⟨hA1, hA2, hA3⟩ := upsertApprovedRow_props newApprovedId now segment_id
    target_locale approved_by final_text db.approved hA
  obtain ⟨hT1, hT2, hT3⟩ := upsert_tm_entry_props newTmId now nextRowid
    a.project_id s.source_locale target_locale s.source_text final_text
    "approved" (some s.asset_id)
    (some (str s.sheet_name ++ ':' :: natRepr s.row_index))
    "trusted" db.tm db.tm_fts hT
  unfold upsert_approved_translation
  rw [hseg]
  cases hh : ((upsertApprovedRow newApprovedId now segment_id target_locale
      approved_by final_text db.approved).filter
        (approvedKey segment_id target_locale)).head? with
  | none =>
    exfalso
    have hfil := List.head?_eq_none_iff.mp hh
    rw [List.countP_eq_length_filter, hfil] at hA2
    simp at hA2
  | some row =>
    exact ⟨row.id, _, rfl, hA1, hA2, hA3, hT1, hT2, hT3⟩

/-- Witness for C6: a one-segment database with empty approved and TM tables;
the approval succeeds and establishes the uniqueness properties. -/
theorem c6_upsert_approved_translation_witness :
    ∃ rid db2,
      upsert_approved_translation "apr1" "tm1" "now" 7
        ⟨[], [⟨"seg1", "as1", "en", str "Hello", "Sheet1", 4⟩],
          [⟨"as1", "p1"⟩], [], []⟩
        "seg1" "de" (str "Hallo") "me" = Except.ok (rid, db2) ∧
      (∀ sg l, db2.approved.countP (approvedKey sg l) ≤ 1) ∧
      db2.approved.countP (approvedKey "seg1" "de") = 1 ∧
      (([] : List ApprovedRow).any (approvedKey "seg1" "de") = true →
        db2.approved.length = ([] : List ApprovedRow).length) ∧
      db2.tm.countP (tmKeyMatches "p1" "en" "de"
        (normalized_source_hash (str "Hello"))) = 1 ∧
      (∃ r ∈ db2.tm, tmKeyMatches "p1" "en" "de"
        (normalized_source_hash (str "Hello")) r = true ∧
        r.origin = "approved" ∧ r.quality_tag = "trusted") ∧
      (([] : List TMEntry).any (tmKeyMatches "p1" "en" "de"
        (normalized_source_hash (str "Hello"))) = true →
        db2.tm.length = ([] : List TMEntry).length) :=
  c6_upsert_approved_translation "apr1" "tm1" "now" 7
    ⟨[], [⟨"seg1", "as1", "en", str "Hello", "Sheet1", 4⟩], [⟨"as1", "p1"⟩], [], []⟩
    "seg1" "de" (str "Hallo") "me" ⟨"as1", "p1"⟩
    ⟨"seg1", "as1", "en", str "Hello", "Sheet1", 4⟩
    (by decide) (fun sg l => by simp) (by decide)

end ClaimC6

section Migrations

/-- The schema-level state of one project store: which tables exist, which
columns the segments table has, and the schema_meta schema_version row
(none when the row is absent). -/
structure SchemaState where
  tables : List String
  segment_columns : List String
  schema_version : Option Nat
deriving Repr, DecidableEq

/-- src/tt_core/db/migrations.py _table_exists: sqlite_master lookup. -/
def table_exists (s : SchemaState) (table_name : String) : Bool :=
  s.tables.contains table_name

/-- src/tt_core/db/migrations.py get_schema_version: 0 when schema_meta is
missing or has no schema_version row, else the stored value. -/
def get_schema_version (s : SchemaState) : Nat :=
  if table_exists s "schema_meta" then
    match s.schema_version with
    | none => 0
    | some v => v
  else 0

/-- src/tt_core/db/migrations.py _set_schema_version: INSERT ... ON
CONFLICT(key) DO UPDATE on the single schema_version row. -/
def set_schema_version (s : SchemaState) (version : Nat) : SchemaState :=
  { s with schema_version := some version }

/-- CREATE TABLE IF NOT EXISTS at the schema-state level. -/
def createTableIfNotExists (s : SchemaState) (name : String) : SchemaState :=
  if s.tables.contains name then s else { s with tables := s.tables ++ [name] }

/-- The tables _migration_v1 creates (src/tt_core/db/migrations.py, in
statement order; indexes are omitted from the model). -/
def v1Tables : List String :=
  ["schema_meta", "projects", "project_locales", "assets", "schema_profiles",
   "segments", "translation_candidates", "approved_translations", "tm_entries",
   "glossary_terms", "qa_flags", "jobs"]

/-- The columns of the segments table as _migration_v1 creates it. -/
def v1SegmentColumns : List String :=
  ["id", "asset_id", "sheet_name", "row_index", "key", "source_locale",
   "source_text", "cn_text", "context_json", "char_limit", "placeholders_json"]

/-- src/tt_core/db/migrations.py _migration_v1: CREATE TABLE IF NOT EXISTS
for every base table; the segments column set is installed only when the
segments table did not exist before. -/
def migration_v1 (s : SchemaState) : SchemaState :=
  let s1 := v1Tables.foldl createTableIfNotExists s
  if s.tables.contains "segments" then s1
  else { s1 with segment_columns := v1SegmentColumns }

/-- Modelled from the spec: v2 introduces a virtual FTS table over TM
source/target text (tm_fts); the function is imported by the tests but
absent from src/tt_core/db/migrations.py, whose create_fts5_tables_placeholder
stub defers it to a dedicated migration. -/
def migration_v2 (s : SchemaState) : SchemaState :=
  createTableIfNotExists s "tm_fts"

/-- Modelled from the spec: v3 adds a source_text_old column on segments
(ALTER TABLE ADD COLUMN, guarded against the column already existing); the
function is exercised by the tests but absent from
src/tt_core/db/migrations.py. -/
def migration_v3 (s : SchemaState) : SchemaState :=
  if s.segment_columns.contains "source_text_old" then s
  else { s with segment_columns := s.segment_columns ++ ["source_text_old"] }

/-- The numbered migration set, sorted ascending. -/
def MIGRATIONS : List (Nat × (SchemaState → SchemaState)) :=
  [(1, migration_v1), (2, migration_v2), (3, migration_v3)]

/-- src/tt_core/db/migrations.py migrate_to_latest: read the current version,
then inside one transaction apply every migration above it in ascending
order, writing the new version right after each migration in the same
transaction. Returns the final version with the final state. -/
def migrate_to_latest (s : SchemaState) : Nat × SchemaState :=
  MIGRATIONS.foldl
    (fun acc m =>
      if m.1 ≤ acc.1 then acc
      else (m.1, set_schema_version (m.2 acc.2) m.1))
    (get_schema_version s, s)

theorem contains_append_singleton (l : List String) (x : String) :
    (l ++ [x]).contains x = true := by
  induction l with
  | nil => simp
  | cons a t ih => simp [List.contains_cons, ih]

theorem migration_v2_tm_fts (s : SchemaState) :
    (migration_v2 s).tables.contains "tm_fts" = true := by
  unfold migration_v2 createTableIfNotExists
  by_cases h : s.tables.contains "tm_fts" = true
  · rw [if_pos h]; exact h
  · rw [if_neg h]
    exact contains_append_singleton s.tables "tm_fts"

theorem migration_v3_col (s : SchemaState) :
    (migration_v3 s).segment_columns.contains "source_text_old" = true := by
  unfold migration_v3
  by_cases h : s.segment_columns.contains "source_text_old" = true
  · rw [if_pos h]; exact h
  · rw [if_neg h]
    exact contains_append_singleton s.segment_columns "source_text_old"

theorem migration_v3_tables (s : SchemaState) :
    (migration_v3 s).tables = s.tables := by
  unfold migration_v3
  by_cases h : s.segment_columns.contains "source_text_old" = true
  · rw [if_pos h]
  · rw [if_neg h]

theorem migrate_to_latest_eq (s : SchemaState) :
    migrate_to_latest s =
      if 3 ≤ get_schema_version s then (get_schema_version s, s)
      else if get_schema_version s = 2 then
        (3, set_schema_version (migration_v3 s) 3)
      else if get_schema_version s = 1 then
        (3, set_schema_version (migration_v3
          (set_schema_version (migration_v2 s) 2)) 3)
      else
        (3, set_schema_version (migration_v3 (set_schema_version (migration_v2
          (set_schema_version (migration_v1 s) 1)) 2)) 3) := by
  rcases Nat.lt_or_ge (get_schema_version s) 3 with h3 | h3
  · have : get_schema_version s = 0 ∨ get_schema_version s = 1 ∨
        get_schema_version s = 2 := by omega
    rcases this with h | h | h <;>
      simp [migrate_to_latest, MIGRATIONS, h]
  · have h1 : 1 ≤ get_schema_version s := by omega
    have h2 : 2 ≤ get_schema_version s := by omega
    simp [migrate_to_latest, MIGRATIONS, h1, h2, h3]

end Migrations

section ClaimC3

/-- C3: the migration set holds exactly versions 1, 2 and 3; migrate_to_latest
always advances the store to the highest known version — a store below
version 2 gains the tm_fts virtual table, a store below version 3 gains the
source_text_old segments column and has version 3 recorded by the same run —
while a store at version 3 or above is left untouched. -/
theorem c3_migrate_to_latest (s : SchemaState) :
    MIGRATIONS.map Prod.fst = [1, 2, 3] ∧
    (migrate_to_latest s).1 = max (get_schema_version s) 3 ∧
    (get_schema_version s < 2 →
      (migrate_to_latest s).2.tables.contains "tm_fts" = true) ∧
    (get_schema_version s < 3 →
      (migrate_to_latest s).2.segment_columns.contains "source_text_old" = true ∧
      (migrate_to_latest s).2.schema_version = some 3) ∧
    (3 ≤ get_schema_version s → (migrate_to_latest s).2 = s) := by
  rw [migrate_to_latest_eq]
  refine ⟨rfl, ?_, ?_, ?_, ?_⟩
  · split_ifs <;> dsimp only <;> omega
  · intro h
    split_ifs with ha hb hc
    · omega
    · omega
    · show (migration_v3 (set_schema_version (migration_v2 s) 2)).tables.contains
        "tm_fts" = true
      rw [migration_v3_tables]
      exact migration_v2_tm_fts s
    · show (migration_v3 (set_schema_version (migration_v2
        (set_schema_version (migration_v1 s) 1)) 2)).tables.contains "tm_fts" = true
      rw [migration_v3_tables]
      exact migration_v2_tm_fts _
  · intro h
    split_ifs with ha hb hc
    · omega
    · exact ⟨migration_v3_col s, rfl⟩
    · exact ⟨migration_v3_col _, rfl⟩
    · exact ⟨migration_v3_col _, rfl⟩
  · intro h
    split_ifs with ha hb hc
    all_goals first
      | rfl
      | omega

end ClaimC3

section JobsModel

/-- The fields of _GeneratedCandidate (src/tt_core/jobs/job_service.py) the
claims read: the pipeline result for one segment. -/
structure GeneratedCandidate where
  candidate_text : Str
  candidate_type : String
  score : ℚ
  qa_issues : List String
deriving Repr, DecidableEq

/-- A translation_candidates row, restricted to the columns the claims read. -/
structure CandRow where
  id : String
  segment_id : String
  target_locale : String
  candidate_text : Str
  candidate_type : String
  score : ℚ
deriving Repr, DecidableEq

/-- A qa_flags row, restricted to the columns the claims read. -/
structure QAFlagRow where
  segment_id : String
  target_locale : String
  issue_type : String
deriving Repr, DecidableEq

/-- src/tt_core/jobs/job_service.py _replace_qa_flags: DELETE the rows for
(segment_id, target_locale), then INSERT one row per issue. -/
def replace_qa_flags (segment_id target_locale : String) (issues : List String)
    (flags : List QAFlagRow) : List QAFlagRow :=
  (flags.filter (fun f =>
      !(f.segment_id == segment_id && f.target_locale == target_locale))) ++
    issues.map (fun i => ⟨segment_id, target_locale, i⟩)

/-- The selection key of _upsert_candidate_on_connection:
(segment_id, target_locale, candidate_type). -/
def candKey (segment_id target_locale candidate_type : String) (r : CandRow) : Bool :=
  r.segment_id == segment_id && r.target_locale == target_locale &&
    r.candidate_type == candidate_type

/-- src/tt_core/review/review_service.py _upsert_candidate_on_connection:
select the existing row for (segment_id, target_locale, candidate_type)
(LIMIT 1; the ORDER BY tie-break between duplicate keys is left as the
stored order), UPDATE its text and score in place when found, INSERT a fresh
row otherwise. -/
def upsert_candidate (newId segment_id target_locale : String)
    (candidate_text : Str) (candidate_type : String) (score : ℚ)
    (rows : List CandRow) : List CandRow :=
  match (rows.filter (candKey segment_id target_locale candidate_type)).head? with
  | none => rows ++
      [⟨newId, segment_id, target_locale, candidate_text, candidate_type, score⟩]
  | some existing =>
      rows.map (fun r =>
        if r.id = existing.id then
          { r with candidate_text := candidate_text, score := score }
        else r)

/-- src/tt_core/jobs/job_service.py _change_proposal_score: 1.0 for a
tm_exact generation, the generated score for tm_fuzzy, 0.5 otherwise. -/
def change_proposal_score (generated : GeneratedCandidate) : ℚ :=
  if generated.candidate_type == "tm_exact" then 1
  else if generated.candidate_type == "tm_fuzzy" then generated.score
  else 1/2

/-- Modelled from the spec: upsert_change_proposal is imported by
tt_core.review from review_service but absent from that module; per the spec
it upserts the candidate row of type change_proposed for the segment and
locale with the proposed text and score. -/
def upsert_change_proposal (newId segment_id target_locale : String)
    (text0 : Str) (score : ℚ) (rows : List CandRow) : List CandRow :=
  upsert_candidate newId segment_id target_locale text0 "change_proposed" score rows

/-- A segments row as the change-variant A loop reads it. -/
structure SegmentA where
  id : String
  source_text : Str
  source_text_old : Option Str
deriving Repr, DecidableEq

/-- The tables and counters the change-variant A segment loop writes. -/
structure VarAState where
  candidates : List CandRow
  qa_flags : List QAFlagRow
  changed : Nat
  proposals : Nat
deriving Repr, DecidableEq

/-- One iteration of the run_change_variant_a_job segment loop
(src/tt_core/jobs/job_service.py): segments whose source_text_old is NULL or
trim-equal to source_text are skipped; otherwise the pipeline (oracle gen)
runs, the QA flags for the segment and locale are replaced by the
stale_source_change flag followed by the generated issues, the change
proposal is upserted with _change_proposal_score, and both counters grow.
The placeholders_json segment update is outside this state. -/
def run_change_variant_a_step (gen : String → GeneratedCandidate)
    (newIdOf : String → String) (target_locale : String)
    (st : VarAState) (seg : SegmentA) : VarAState :=
  match seg.source_text_old with
  | none => st
  | some old =>
      if trimStr old = trimStr seg.source_text then st
      else
        { candidates := upsert_change_proposal (newIdOf seg.id) seg.id
            target_locale (gen seg.id).candidate_text
            (change_proposal_score (gen seg.id)) st.candidates
          qa_flags := replace_qa_flags seg.id target_locale
            ("stale_source_change" :: (gen seg.id).qa_issues) st.qa_flags
          changed := st.changed + 1
          proposals := st.proposals + 1 }

/-- The run_change_variant_a_job segment loop over the selected segments. -/
def run_change_variant_a_job (gen : String → GeneratedCandidate)
    (newIdOf : String → String) (target_locale : String)
    (segments : List SegmentA) (st : VarAState) : VarAState :=
  segments.foldl (run_change_variant_a_step gen newIdOf target_locale) st

/-- A segments row as the mock translation loop reads it. -/
structure SegmentM where
  id : String
  source_text : Str
deriving Repr, DecidableEq

/-- The segment tables the mock translation loop writes inside its single
transaction, plus the processed counter. -/
structure MockState where
  placeholders_json : List (String × List Placeholder)
  qa_flags : List QAFlagRow
  candidates : List CandRow
  processed : Nat
deriving Repr, DecidableEq

/-- UPDATE segments SET placeholders_json = :payload WHERE id = :segment_id. -/
def set_placeholders_json (segment_id : String) (payload : List Placeholder)
    (l : List (String × List Placeholder)) : List (String × List Placeholder) :=
  l.map (fun p => if p.1 == segment_id then (p.1, payload) else p)

/-- A jobs row, restricted to the columns update_job_status writes. -/
structure JobRow where
  id : String
  status : String
  summary : Option Str
  finished_at : Option String
deriving Repr, DecidableEq

/-- One iteration of the run_mock_translation_job segment loop
(src/tt_core/jobs/job_service.py): write the segment placeholders_json from
protect_text; a whitespace-only source only clears the QA flags for the
segment and locale; otherwise the translator/reviewer pipeline (oracle gen,
whose error value stands for a raised exception) yields a candidate whose
QA issues and translation_candidates row are written, incrementing
processed. -/
def mock_segment_step (gen : String → Except Str GeneratedCandidate)
    (newIdOf : String → String) (target_locale : String)
    (st : MockState) (seg : SegmentM) : Except Str MockState :=
  let payload := (protect_text seg.source_text).placeholders
  let st1 :=
    { st with placeholders_json := set_placeholders_json seg.id payload st.placeholders_json }
  if trimStr seg.source_text = [] then
    Except.ok { st1 with
      qa_flags := replace_qa_flags seg.id target_locale [] st1.qa_flags }
  else
    match gen seg.id with
    | Except.error e => Except.error e
    | Except.ok g =>
        Except.ok { st1 with
          qa_flags := replace_qa_flags seg.id target_locale g.qa_issues st1.qa_flags
          candidates := upsert_candidate (newIdOf seg.id) seg.id target_locale
            g.candidate_text g.candidate_type g.score st1.candidates
          processed := st1.processed + 1 }

/-- The segment loop of run_mock_translation_job, in source order; the first
exception aborts the remaining iterations. -/
def run_segments (gen : String → Except Str GeneratedCandidate)
    (newIdOf : String → String) (target_locale : String) :
    List SegmentM → MockState → Except Str MockState
  | [], st => Except.ok st
  | seg :: rest, st =>
      match mock_segment_step gen newIdOf target_locale st seg with
      | Except.error e => Except.error e
      | Except.ok st2 => run_segments gen newIdOf target_locale rest st2

/-- src/tt_core/jobs/job_service.py run_mock_translation_job: the whole
segment loop runs inside one engine.begin transaction, so an exception rolls
every segment-table write of the loop back to the state at transaction entry
(the error branch returns the entry tables); update_job_status then commits
status "failed" with summary "Job failed: {exc}" and finished_at on its own
connection, and the exception is re-raised. On success the job row becomes
"done" with the processed count in the summary. -/
def run_mock_translation_job (gen : String → Except Str GeneratedCandidate)
    (newIdOf : String → String) (now target_locale : String)
    (segments : List SegmentM) (job : JobRow) (tables : MockState) :
    JobRow × MockState :=
  match run_segments gen newIdOf target_locale segments tables with
  | Except.error exc =>
      ({ job with status := "failed"
                  summary := some (str "Job failed: " ++ exc)
                  finished_at := some now }, tables)
  | Except.ok st2 =>
      ({ job with status := "done"
                  summary := some (str "Processed " ++ natRepr st2.processed ++
                    str " segment(s) for " ++ str target_locale)
                  finished_at := some now }, st2)

end JobsModel

section ClaimC5

theorem head?_mem {α : Type} {l : List α} {x : α} (h : l.head? = some x) :
    x ∈ l := by
  cases l with
  | nil => cases h
  | cons a t =>
    simp only [List.head?_cons, Option.some.injEq] at h
    exact h ▸ List.mem_cons_self a t

theorem upsert_candidate_exists (newId segment_id target_locale : String)
    (text0 : Str) (ctype : String) (score : ℚ) (rows : List CandRow) :
    ∃ r ∈ upsert_candidate newId segment_id target_locale text0 ctype score rows,
      r.segment_id = segment_id ∧ r.target_locale = target_locale ∧
      r.candidate_type = ctype ∧ r.candidate_text = text0 ∧ r.score = score := by
  unfold upsert_candidate
  cases hh : (rows.filter (candKey segment_id target_locale ctype)).head? with
  | none =>
    exact ⟨⟨newId, segment_id, target_locale, text0, ctype, score⟩,
      List.mem_append_right _ (List.mem_singleton.mpr rfl),
      rfl, rfl, rfl, rfl, rfl⟩
  | some existing =>
    have hmem := head?_mem hh
    have he := List.mem_filter.mp hmem
    have hkey : existing.segment_id = segment_id ∧
        existing.target_locale = target_locale ∧
        existing.candidate_type = ctype := by
      have h2 := he.2
      simp [candKey] at h2
      exact ⟨h2.1.1, h2.1.2, h2.2⟩
    refine ⟨{ existing with candidate_text := text0, score := score }, ?_,
      hkey.1, hkey.2.1, hkey.2.2, rfl, rfl⟩
    refine List.mem_map.mpr ⟨existing, he.1, ?_⟩
    simp

/-- C5 (amended): in a change-variant A run, every segment whose
source_text_old is non-null and trim-differs from source_text gets a
change_proposed candidate whose score is _change_proposal_score of the
generation — 1.0 for a tm_exact hit, the generated (fuzzy) score for a
tm_fuzzy hit, and 0.5 in every other case — and a stale_source_change QA
flag is always written for that (segment, locale). -/
theorem c5_change_variant_a (gen : String → GeneratedCandidate)
    (newIdOf : String → String) (target_locale : String) (st : VarAState)
    (seg : SegmentA) (old : Str)
    (hold : seg.source_text_old = some old)
    (hdiff : trimStr old ≠ trimStr seg.source_text) :
    (∃ r ∈ (run_change_variant_a_step gen newIdOf target_locale st seg).candidates,
      r.segment_id = seg.id ∧ r.target_locale = target_locale ∧
      r.candidate_type = "change_proposed" ∧
      r.candidate_text = (gen seg.id).candidate_text ∧
      r.score = change_proposal_score (gen seg.id)) ∧
    ((gen seg.id).candidate_type = "tm_exact" →
      change_proposal_score (gen seg.id) = 1) ∧
    ((gen seg.id).candidate_type = "tm_fuzzy" →
      change_proposal_score (gen seg.id) = (gen seg.id).score) ∧
    ((gen seg.id).candidate_type ≠ "tm_exact" →
      (gen seg.id).candidate_type ≠ "tm_fuzzy" →
      change_proposal_score (gen seg.id) = 1/2) ∧
    (∃ f ∈ (run_change_variant_a_step gen newIdOf target_locale st seg).qa_flags,
      f.segment_id = seg.id ∧ f.target_locale = target_locale ∧
      f.issue_type = "stale_source_change") := by
  have hstep : run_change_variant_a_step gen newIdOf target_locale st seg =
      { candidates := upsert_change_proposal (newIdOf seg.id) seg.id
          target_locale (gen seg.id).candidate_text
          (change_proposal_score (gen seg.id)) st.candidates
        qa_flags := replace_qa_flags seg.id target_locale
          ("stale_source_change" :: (gen seg.id).qa_issues) st.qa_flags
        changed := st.changed + 1
        proposals := st.proposals + 1 } := by
    unfold run_change_variant_a_step
    rw [hold]
    dsimp only
    rw [if_neg hdiff]
  refine ⟨?_, ?_, ?_, ?_, ?_⟩
  · rw [hstep]
    exact upsert_candidate_exists (newIdOf seg.id) seg.id target_locale
      (gen seg.id).candidate_text "change_proposed"
      (change_proposal_score (gen seg.id)) st.candidates
  · intro h
    unfold change_proposal_score
    simp [h]
  · intro h
    unfold change_proposal_score
    rw [h]
    simp
  · intro h1 h2
    unfold change_proposal_score
    simp [h1, h2]
  · rw [hstep]
    refine ⟨⟨seg.id, target_locale, "stale_source_change"⟩, ?_, rfl, rfl, rfl⟩
    unfold replace_qa_flags
    refine List.mem_append_right _ ?_
    exact List.mem_map.mpr ⟨"stale_source_change",
      List.mem_cons_self _ _, rfl⟩

/-- C5 counterexample: a change-variant A segment whose generation is a
tm_fuzzy hit with score 19/20 stores a change_proposed candidate with score
19/20, not the 0.5 the claim assigns to every non-tm_exact case. -/
theorem c5_counterexample :
    ((run_change_variant_a_step (fun _ => ⟨str "T", "tm_fuzzy", 19/20, []⟩)
        (fun _ => "c1") "de" ⟨[], [], 0, 0⟩
        ⟨"s1", str "new", some (str "old")⟩).candidates.map CandRow.score
      = [19/20]) ∧ ((19 : ℚ)/20 ≠ 1/2) := by
  constructor
  · rfl
  · norm_num

/-- Witness for C5: a concrete changed segment with a tm_fuzzy generation. -/
theorem c5_change_variant_a_witness :
    (∃ r ∈ (run_change_variant_a_step (fun _ => ⟨str "T", "tm_fuzzy", 19/20, []⟩)
        (fun _ => "c1") "de" ⟨[], [], 0, 0⟩
        ⟨"s1", str "new", some (str "old")⟩).candidates,
      r.segment_id = "s1" ∧ r.target_locale = "de" ∧
      r.candidate_type = "change_proposed" ∧
      r.candidate_text = str "T" ∧
      r.score = change_proposal_score ⟨str "T", "tm_fuzzy", 19/20, []⟩) ∧
    ((("tm_fuzzy" : String) = "tm_exact") →
      change_proposal_score ⟨str "T", "tm_fuzzy", 19/20, []⟩ = 1) ∧
    ((("tm_fuzzy" : String) = "tm_fuzzy") →
      change_proposal_score ⟨str "T", "tm_fuzzy", 19/20, []⟩ = 19/20) ∧
    ((("tm_fuzzy" : String) ≠ "tm_exact") → (("tm_fuzzy" : String) ≠ "tm_fuzzy") →
      change_proposal_score ⟨str "T", "tm_fuzzy", 19/20, []⟩ = 1/2) ∧
    (∃ f ∈ (run_change_variant_a_step (fun _ => ⟨str "T", "tm_fuzzy", 19/20, []⟩)
        (fun _ => "c1") "de" ⟨[], [], 0, 0⟩
        ⟨"s1", str "new", some (str "old")⟩).qa_flags,
      f.segment_id = "s1" ∧ f.target_locale = "de" ∧
      f.issue_type = "stale_source_change") :=
  c5_change_variant_a (fun _ => ⟨str "T", "tm_fuzzy", 19/20, []⟩)
    (fun _ => "c1") "de" ⟨[], [], 0, 0⟩ ⟨"s1", str "new", some (str "old")⟩
    (str "old") rfl (by decide)

end ClaimC5

section ClaimC8

theorem run_segments_append (gen : String → Except Str GeneratedCandidate)
    (newIdOf : String → String) (target_locale : String)
    (l1 l2 : List SegmentM) (st : MockState) :
    run_segments gen newIdOf target_locale (l1 ++ l2) st =
      match run_segments gen newIdOf target_locale l1 st with
      | Except.error e => Except.error e
      | Except.ok s => run_segments gen newIdOf target_locale l2 s := by
  induction l1 generalizing st with
  | nil => rfl
  | cons seg rest ih =>
    have hcons : ∀ (sgs : List SegmentM) (st0 : MockState),
        run_segments gen newIdOf target_locale (seg :: sgs) st0 =
          match mock_segment_step gen newIdOf target_locale st0 seg with
          | Except.error e => Except.error e
          | Except.ok st2 => run_segments gen newIdOf target_locale sgs st2 :=
      fun _ _ => rfl
    rw [List.cons_append, hcons, hcons]
    cases mock_segment_step gen newIdOf target_locale st seg with
    | error e => rfl
    | ok st2 => exact ih st2

/-- C8 (amended): when the pipeline raises on a segment of a mock translation
job, the whole transaction is rolled back — every segment-table write of the
job, including those of previously processed segments, is discarded, not only
the in-flight segment's — the job row transitions to "failed" with summary
"Job failed: {exc}" and finished_at set, and the segments after the failing
one are never processed (the result does not depend on them). -/
theorem c8_job_failure (gen : String → Except Str GeneratedCandidate)
    (newIdOf : String → String) (now target_locale : String)
    (pre : List SegmentM) (sf : SegmentM) (post : List SegmentM)
    (job : JobRow) (tables s1 : MockState) (exc : Str)
    (hpre : run_segments gen newIdOf target_locale pre tables = Except.ok s1)
    (hf : mock_segment_step gen newIdOf target_locale s1 sf = Except.error exc) :
    run_mock_translation_job gen newIdOf now target_locale (pre ++ sf :: post)
        job tables =
      ({ job with status := "failed"
                  summary := some (str "Job failed: " ++ exc)
                  finished_at := some now }, tables) := by
  have hrun : run_segments gen newIdOf target_locale (pre ++ sf :: post) tables =
      Except.error exc := by
    rw [run_segments_append, hpre]
    unfold run_segments
    rw [hf]
  unfold run_mock_translation_job
  rw [hrun]

/-- C8 counterexample: with two segments where the first succeeds (writing a
candidate row) and the second raises, the failed job ends with the initial
tables — the first segment's committed-looking write is rolled back too,
refuting the in-flight-only rollback — while the successful one-segment run
shows that write had happened. -/
theorem c8_counterexample :
    (run_segments
        (fun i => if i == "s1" then Except.ok ⟨str "X", "mt", 1, []⟩
          else Except.error (str "boom"))
        (fun i => i ++ "-c") "de" [⟨"s1", str "Hello"⟩]
        ⟨[("s1", []), ("s2", [])], [], [], 0⟩ =
      Except.ok ⟨[("s1", []), ("s2", [])], [],
        [⟨"s1-c", "s1", "de", str "X", "mt", 1⟩], 1⟩) ∧
    (run_mock_translation_job
        (fun i => if i == "s1" then Except.ok ⟨str "X", "mt", 1, []⟩
          else Except.error (str "boom"))
        (fun i => i ++ "-c") "now" "de" [⟨"s1", str "Hello"⟩, ⟨"s2", str "World"⟩]
        ⟨"job1", "running", none, none⟩ ⟨[("s1", []), ("s2", [])], [], [], 0⟩ =
      (⟨"job1", "failed", some (str "Job failed: boom"), some "now"⟩,
        ⟨[("s1", []), ("s2", [])], [], [], 0⟩)) := by
  constructor
  · rfl
  · decide

/-- Witness for C8: the amended theorem at the concrete two-segment failing
run, with a third segment after the failure point. -/
theorem c8_job_failure_witness :
    run_mock_translation_job
        (fun i => if i == "s1" then Except.ok ⟨str "X", "mt", 1, []⟩
          else Except.error (str "boom"))
        (fun i => i ++ "-c") "now" "de"
        ([⟨"s1", str "Hello"⟩] ++ ⟨"s2", str "World"⟩ :: [⟨"s3", str "Z"⟩])
        ⟨"job1", "running", none, none⟩ ⟨[("s1", []), ("s2", [])], [], [], 0⟩ =
      ({ (⟨"job1", "running", none, none⟩ : JobRow) with
          status := "failed"
          summary := some (str "Job failed: " ++ str "boom")
          finished_at := some "now" },
        ⟨[("s1", []), ("s2", [])], [], [], 0⟩) :=
  c8_job_failure
    (fun i => if i == "s1" then Except.ok ⟨str "X", "mt", 1, []⟩
      else Except.error (str "boom"))
    (fun i => i ++ "-c") "now" "de" [⟨"s1", str "Hello"⟩] ⟨"s2", str "World"⟩
    [⟨"s3", str "Z"⟩] ⟨"job1", "running", none, none⟩
    ⟨[("s1", []), ("s2", [])], [], [], 0⟩
    ⟨[("s1", []), ("s2", [])], [], [⟨"s1-c", "s1", "de", str "X", "mt", 1⟩], 1⟩
    (str "boom") rfl rfl

end ClaimC8

end TTool
